import Mathlib

/-!
Shallow embedding of the Synapse semantic-chunking core
(preprocessor, structural detectors, chunker) as executable Lean
definitions, together with theorems checking the specification's
claims about it.

Strings are modelled as `List Char`.  JavaScript regular-expression
replacements are modelled as structural scans with the same
leftmost, non-overlapping, continue-after-match semantics.  The
numeric confidence scores are modelled exactly with `ℚ` (the scores
are ratios of small integers, far from any comparison boundary, so
exact rationals agree with the JS float computation on all inputs
considered here).  JavaScript case mapping is modelled on ASCII.
The one fallible code path (`chunkTableByRows` reads `lines[1]`
even when only one line exists, which throws in JS) is modelled
with `Option`: `none` is the thrown exception.
-/

set_option maxRecDepth 10000

abbrev Str := List Char

/-- JS `\s` class (the whitespace characters relevant to the sources). -/
def jsWs (c : Char) : Bool :=
  let n := c.toNat
  n == 9 || n == 10 || n == 11 || n == 12 || n == 13 || n == 32 || n == 160 ||
  n == 0x1680 || decide (0x2000 ≤ n ∧ n ≤ 0x200A) || n == 0x2028 || n == 0x2029 ||
  n == 0x202F || n == 0x205F || n == 0x3000 || n == 0xFEFF

/-- JS `\w` class: ASCII letters, digits and underscore. -/
def isWordChar (c : Char) : Bool :=
  let n := c.toNat
  decide ((48 ≤ n ∧ n ≤ 57) ∨ (65 ≤ n ∧ n ≤ 90) ∨ (97 ≤ n ∧ n ≤ 122) ∨ n = 95)

def isDigitChar (c : Char) : Bool :=
  decide (48 ≤ c.toNat ∧ c.toNat ≤ 57)

def isLowerAZ (c : Char) : Bool :=
  decide (97 ≤ c.toNat ∧ c.toNat ≤ 122)

def isUpperAZ (c : Char) : Bool :=
  decide (65 ≤ c.toNat ∧ c.toNat ≤ 90)

/-- ASCII model of JS `toUpperCase` on a character. -/
def upperizeChar (c : Char) : Char :=
  if isLowerAZ c then Char.ofNat (c.toNat - 32) else c

/-- ASCII model of JS `toLowerCase` on a character. -/
def lowerizeChar (c : Char) : Char :=
  if isUpperAZ c then Char.ofNat (c.toNat + 32) else c

/-- JS `String.prototype.trim`. -/
def trimStr (l : Str) : Str :=
  ((l.dropWhile jsWs).reverse.dropWhile jsWs).reverse

/-- `text.split("\n")`: always returns at least one piece. -/
def splitNl : Str → List Str
  | [] => [[]]
  | c :: rest =>
    if c = '\n' then [] :: splitNl rest
    else
      match splitNl rest with
      | [] => [[c]]
      | l :: ls => (c :: l) :: ls

/-- `pieces.join("\n")`. -/
def joinNl : List Str → Str
  | [] => []
  | [l] => l
  | l :: l' :: ls => l ++ '\n' :: joinNl (l' :: ls)

def containsChar (c : Char) (l : Str) : Bool :=
  l.any (fun x => x == c)

/-- `s.startsWith(p)`. -/
def startsWithStr : Str → Str → Bool
  | _, [] => true
  | [], _ :: _ => false
  | c :: s, p :: ps => c == p && startsWithStr s ps

/-- `s.slice(-n)` for `n ≥ 1`: the last `min n (length s)` characters. -/
def takeRight (n : Nat) (l : Str) : Str :=
  l.drop (l.length - n)

/-! ## Preprocessor (`preprocessor.ts`) -/

/-- `replace(/\r\n/g, "\n")`. -/
def crlfToNl : Str → Str
  | c :: c2 :: rest =>
    if c = '\r' ∧ c2 = '\n' then '\n' :: crlfToNl rest else c :: crlfToNl (c2 :: rest)
  | l => l

/-- `replace(/\r/g, "\n")`. -/
def crToNl (l : Str) : Str :=
  l.map (fun c => if c = '\r' then '\n' else c)

/-- `replace(/ +/g, " ")` (keeps the first space of a run). -/
def collapseSpaces : Bool → Str → Str
  | _, [] => []
  | prev, c :: rest =>
    if c = ' ' then (if prev then collapseSpaces true rest else ' ' :: collapseSpaces true rest)
    else c :: collapseSpaces false rest

/-- `replace(/\t+/g, "\t")`. -/
def collapseTabs : Bool → Str → Str
  | _, [] => []
  | prev, c :: rest =>
    if c = '\t' then (if prev then collapseTabs true rest else '\t' :: collapseTabs true rest)
    else c :: collapseTabs false rest

/-- `replace(/\n{4,}/g, "\n\n\n")`: keep at most the first three newlines of a run. -/
def collapseNls : Nat → Str → Str
  | _, [] => []
  | run, c :: rest =>
    if c = '\n' then (if run < 3 then '\n' :: collapseNls (run + 1) rest else collapseNls (run + 1) rest)
    else c :: collapseNls 0 rest

def normalizeWhitespace (l : Str) : Str :=
  collapseNls 0 (collapseTabs false (collapseSpaces false (crToNl (crlfToNl l))))

/-- Characters deleted by the zero-width / soft-hyphen removal. -/
def isZeroWidth (c : Char) : Bool :=
  let n := c.toNat
  n == 0x200B || n == 0x200C || n == 0x200D || n == 0xFEFF || n == 0x00AD

/-- `replace(/(\w)-\s+(\w)/g, "$1$2")` with JS continue-after-match scanning.
Fuel-driven; fuel `length l` always suffices since every step consumes a character. -/
def hjGo : Nat → Str → Str
  | 0, l => l
  | _ + 1, [] => []
  | fuel + 1, c1 :: rest =>
    if isWordChar c1 then
      match rest with
      | '-' :: rest2 =>
        let ws := rest2.takeWhile jsWs
        let rest3 := rest2.dropWhile jsWs
        if ws.isEmpty then c1 :: hjGo fuel rest
        else
          match rest3 with
          | c2 :: rest4 =>
            if isWordChar c2 then c1 :: c2 :: hjGo fuel rest4 else c1 :: hjGo fuel rest
          | [] => c1 :: hjGo fuel rest
      | _ => c1 :: hjGo fuel rest
    else c1 :: hjGo fuel rest

def hyphenJoin (l : Str) : Str := hjGo l.length l

/-- `replace(/([a-z])([A-Z])/g, "$1 $2")` with continue-after-match scanning. -/
def caseSpace : Str → Str
  | c1 :: c2 :: rest =>
    if isLowerAZ c1 ∧ isUpperAZ c2 then c1 :: ' ' :: c2 :: caseSpace rest
    else c1 :: caseSpace (c2 :: rest)
  | l => l

/-- `replace(/\f/g, "\n\n")`. -/
def ffToNls : Str → Str
  | [] => []
  | c :: rest => if c = '\x0C' then '\n' :: '\n' :: ffToNls rest else c :: ffToNls rest

def removePDFArtifacts (l : Str) : Str :=
  ffToNls (caseSpace (hyphenJoin (l.filter (fun c => !isZeroWidth c))))

/-- `\d+` then end of string. -/
def digitsThenEnd (l : Str) : Bool :=
  let ds := l.takeWhile isDigitChar
  !ds.isEmpty && (l.drop ds.length).isEmpty

/-- The optional `(\s*(\/|of)\s*\d+)?$` tail of the page-number pattern. -/
def pnTail (l : Str) : Bool :=
  match l with
  | [] => true
  | _ =>
    match l.dropWhile jsWs with
    | '/' :: r2 => digitsThenEnd (r2.dropWhile jsWs)
    | a :: b :: r2 =>
      (a == 'o' || a == 'O') && (b == 'f' || b == 'F') && digitsThenEnd (r2.dropWhile jsWs)
    | _ => false

/-- `\d+(\s*(\/|of)\s*\d+)?$`. -/
def pnCore (l : Str) : Bool :=
  let ds := l.takeWhile isDigitChar
  !ds.isEmpty && pnTail (l.drop ds.length)

/-- The `page\s+` prefixed alternative of `^(page\s+)?\d+(\s*(\/|of)\s*\d+)?$/i`. -/
def pnPage (l : Str) : Bool :=
  match l with
  | p :: a :: g :: e :: r =>
    (p == 'p' || p == 'P') && (a == 'a' || a == 'A') && (g == 'g' || g == 'G') &&
    (e == 'e' || e == 'E') &&
    (!(r.takeWhile jsWs).isEmpty && pnCore (r.dropWhile jsWs))
  | _ => false

def pnMatch (l : Str) : Bool := pnPage l || pnCore l

/-- `^\d{1,3}$`. -/
def bareShortNumber (l : Str) : Bool :=
  !l.isEmpty && decide (l.length ≤ 3) && l.all isDigitChar

def removePageNumbers (l : Str) : Str :=
  joinNl ((splitNl l).filter (fun line =>
    !(pnMatch (trimStr line) || bareShortNumber (trimStr line))))

/-- `^https?:\/\/[^\s]+$`. -/
def urlLine (t : Str) : Bool :=
  match t with
  | 'h' :: 't' :: 't' :: 'p' :: r =>
    (match r with
     | 's' :: ':' :: '/' :: '/' :: r2 => !r2.isEmpty && r2.all (fun c => !jsWs c)
     | ':' :: '/' :: '/' :: r2 => !r2.isEmpty && r2.all (fun c => !jsWs c)
     | _ => false)
  | _ => false

def emailChar (c : Char) : Bool := isWordChar c || c == '.' || c == '-'

/-- `[\w.-]+\.\w+$` over the part after the `@`: some dot followed by a
nonempty all-word suffix, with a nonempty part before that dot. -/
def emailTail (b : Str) : Bool :=
  let r := b.reverse
  let w := r.takeWhile isWordChar
  !w.isEmpty &&
    (match r.drop w.length with
     | '.' :: rest => !rest.isEmpty
     | _ => false)

/-- `^[\w.-]+@[\w.-]+\.\w+$`. -/
def emailLine (t : Str) : Bool :=
  let a := t.takeWhile (fun c => c != '@')
  match t.drop a.length with
  | '@' :: b => !a.isEmpty && a.all emailChar && b.all emailChar && emailTail b
  | _ => false

def removeStandaloneLinks (l : Str) : Str :=
  joinNl ((splitNl l).filter (fun line =>
    !(urlLine (trimStr line) || emailLine (trimStr line))))

/-- Frequency of a trimmed line value among the document's lines. -/
def countOcc (lines : List Str) (t : Str) : Nat :=
  lines.countP (fun l => decide (trimStr l = t))

/-- A trimmed line value the source treats as repeated boilerplate:
trimmed length strictly between 5 and 100, occurring more than twice. -/
def isRepeatedLine (lines : List Str) (t : Str) : Bool :=
  decide (5 < t.length ∧ t.length < 100 ∧ 2 < countOcc lines t)

def removeRepeatedSections (l : Str) : Str :=
  let lines := splitNl l
  if lines.any (fun line => isRepeatedLine lines (trimStr line)) then
    joinNl (lines.filter (fun line => !isRepeatedLine lines (trimStr line)))
  else l

/-- Glyphs of the bullet normalization class `[•●○◦▪▫■□★☆►▸]`. -/
def isBulletGlyph (c : Char) : Bool :=
  c == '•' || c == '●' || c == '○' || c == '◦' || c == '▪' || c == '▫' ||
  c == '■' || c == '□' || c == '★' || c == '☆' || c == '►' || c == '▸'

def isDashGlyph (c : Char) : Bool :=
  c == '-' || c == '–' || c == '—'

/-- Attempted match of `^[\s]*[•●○◦▪▫■□★☆►▸]+[\s]+` at a line-start position;
on success returns (replacement, last consumed char, remainder). -/
def tryBullet (l : Str) : Option (Str × Char × Str) :=
  let r1 := l.dropWhile jsWs
  let bs := r1.takeWhile isBulletGlyph
  if bs.isEmpty then none
  else
    let r2 := r1.drop bs.length
    let ws2 := r2.takeWhile jsWs
    if ws2.isEmpty then none
    else some (['•', ' '], ws2.getLastD ' ', r2.drop ws2.length)

/-- Attempted match of `^[\s]*[-–—]+[\s]+` at a line-start position. -/
def tryDash (l : Str) : Option (Str × Char × Str) :=
  let r1 := l.dropWhile jsWs
  let ds := r1.takeWhile isDashGlyph
  if ds.isEmpty then none
  else
    let r2 := r1.drop ds.length
    let ws2 := r2.takeWhile jsWs
    if ws2.isEmpty then none
    else some (['•', ' '], ws2.getLastD ' ', r2.drop ws2.length)

/-- Attempted match of `^[\s]*(\d+)[\.)]\s+` at a line-start position,
replaced by `"$1. "`. -/
def tryNum (l : Str) : Option (Str × Char × Str) :=
  let r1 := l.dropWhile jsWs
  let ds := r1.takeWhile isDigitChar
  if ds.isEmpty then none
  else
    match r1.drop ds.length with
    | p :: r2 =>
      if p == '.' || p == ')' then
        let ws2 := r2.takeWhile jsWs
        if ws2.isEmpty then none
        else some (ds ++ ['.', ' '], ws2.getLastD ' ', r2.drop ws2.length)
      else none
    | [] => none

/-- One global multiline replace pass: at every line-start position try the
match, otherwise copy a character; scanning resumes after a match. -/
def nlGo (tryR : Str → Option (Str × Char × Str)) : Nat → Bool → Str → Str
  | 0, _, l => l
  | _ + 1, _, [] => []
  | fuel + 1, atStart, c :: rest =>
    if atStart then
      match tryR (c :: rest) with
      | some (repl, lastC, rest2) => repl ++ nlGo tryR fuel (lastC == '\n') rest2
      | none => c :: nlGo tryR fuel (c == '\n') rest
    else c :: nlGo tryR fuel (c == '\n') rest

def normalizeLists (l : Str) : Str :=
  let a := nlGo tryBullet l.length true l
  let b := nlGo tryDash a.length true a
  nlGo tryNum b.length true b

/-- `\bl\b` → `I` (word-boundary test on the source string). -/
def ocrLtoI : Bool → Str → Str
  | _, [] => []
  | prevWord, c :: rest =>
    (if c == 'l' && !prevWord && !(match rest with | r :: _ => isWordChar r | [] => false)
     then 'I' else c) :: ocrLtoI (isWordChar c) rest

/-- `\b0\b` → `O`. -/
def ocrZeroToO : Bool → Str → Str
  | _, [] => []
  | prevWord, c :: rest =>
    (if c == '0' && !prevWord && !(match rest with | r :: _ => isWordChar r | [] => false)
     then 'O' else c) :: ocrZeroToO (isWordChar c) rest

/-- `([a-z])1([a-z])` → `$1l$2`. -/
def ocrMidOne : Str → Str
  | a :: '1' :: b :: rest =>
    if isLowerAZ a ∧ isLowerAZ b then a :: 'l' :: b :: ocrMidOne rest
    else a :: ocrMidOne ('1' :: b :: rest)
  | a :: rest => a :: ocrMidOne rest
  | [] => []

/-- `(\w)1\s` → `"$1l "` (the matched whitespace becomes a literal space). -/
def ocrOneWs : Str → Str
  | a :: '1' :: s :: rest =>
    if isWordChar a ∧ jsWs s then a :: 'l' :: ' ' :: ocrOneWs rest
    else a :: ocrOneWs ('1' :: s :: rest)
  | a :: rest => a :: ocrOneWs rest
  | [] => []

/-- `\s1(\w)` → `" l$1"`. -/
def ocrWsOne : Str → Str
  | s :: '1' :: w :: rest =>
    if jsWs s ∧ isWordChar w then ' ' :: 'l' :: w :: ocrWsOne rest
    else s :: ocrWsOne ('1' :: w :: rest)
  | s :: rest => s :: ocrWsOne rest
  | [] => []

def fixOCRErrors (l : Str) : Str :=
  ocrWsOne (ocrOneWs (ocrMidOne (ocrZeroToO false (ocrLtoI false l))))

/-- The caller-visible options of `preprocessText`, after resolving the
JS defaulting (`!== false` for the first three, `=== true` for `fixOCR`). -/
structure PreprocessOptions where
  removeRepeated : Bool
  removePageNumbers : Bool
  fixOCR : Bool
  removeLinks : Bool
deriving DecidableEq

/-- `preprocessText({})`: all-absent options. -/
def defaultOptions : PreprocessOptions := ⟨true, true, false, true⟩

/-- The options `semanticChunk` passes to `preprocessText`. -/
def chunkerOptions : PreprocessOptions := ⟨true, true, false, false⟩

def preprocessText (text : Str) (o : PreprocessOptions) : Str :=
  let p1 := normalizeWhitespace text
  let p2 := removePDFArtifacts p1
  let p3 := if o.removePageNumbers then removePageNumbers p2 else p2
  let p4 := if o.removeLinks then removeStandaloneLinks p3 else p3
  let p5 := if o.removeRepeated then removeRepeatedSections p4 else p4
  let p6 := normalizeLists p5
  let p7 := if o.fixOCR then fixOCRErrors p6 else p6
  trimStr (normalizeWhitespace p7)

def quickClean (text : Str) : Str :=
  removePDFArtifacts (normalizeWhitespace text)

/-- The spec's repeated-line rule taken literally ("length 5–99 inclusive"),
for comparison with the implementation.  Modelled from the spec: count
trimmed-line frequency across lines of length 5–99; any line occurring more
than twice document-wide is removed from every occurrence. -/
def isRepeatedLineSpec (lines : List Str) (t : Str) : Bool :=
  decide (5 ≤ t.length ∧ t.length ≤ 99 ∧ 2 < countOcc lines t)

/-- Modelled from the spec: `removeRepeatedSections` as the spec words it,
with the inclusive 5–99 length window. -/
def removeRepeatedSectionsSpec (l : Str) : Str :=
  joinNl ((splitNl l).filter (fun line => !isRepeatedLineSpec (splitNl l) (trimStr line)))

/-! ## Data model (`types.ts`) -/

inductive ContentType where
  | text
  | table
  | list
  | heading
deriving DecidableEq

inductive ConfLevel where
  | high
  | medium
  | low
deriving DecidableEq

structure ChunkMetadata where
  chunkIndex : Nat
  pageNumber : Option Nat
  contentType : ContentType
  confidence : ConfLevel
  hasOverlap : Bool
  originalLength : Nat
deriving DecidableEq

structure Chunk where
  content : Str
  metadata : ChunkMetadata
deriving DecidableEq

structure ContentBlock where
  text : Str
  type : ContentType
  confidence : ℚ
  startLine : Nat
  endLine : Nat
deriving DecidableEq

structure ChunkingConfig where
  maxChunkSize : Nat
  overlapSize : Nat
  tableMaxSize : Nat
  minChunkSize : Nat
deriving DecidableEq

def DEFAULT_CONFIG : ChunkingConfig := ⟨1000, 200, 2000, 100⟩

/-! ## Detectors (`detectors.ts`) -/

/-- `/\s{3,}/.test(l)`: three consecutive whitespace characters somewhere. -/
def hasWs3 : Str → Bool
  | a :: b :: c :: rest => (jsWs a && jsWs b && jsWs c) || hasWs3 (b :: c :: rest)
  | _ => false

/-- Nonempty lines of a span, as the detectors compute them. -/
def detectorLines (text : Str) : List Str :=
  (splitNl text).filter (fun l => !(trimStr l).isEmpty)

def detectTable (text : Str) : Bool × ℚ :=
  let lines := detectorLines text
  if lines.length < 2 then (false, 0)
  else
    let n := lines.length
    let pipeLines := (lines.filter (containsChar '|')).length
    let score1 : Nat :=
      if 3 ≤ pipeLines then (if 7 * n < 10 * pipeLines then 30 + 20 else 30) else 0
    let tabLines := (lines.filter (containsChar '\t')).length
    let score2 : Nat := if 3 ≤ tabLines then 20 else 0
    let spacedLines := (lines.filter hasWs3).length
    let score3 : Nat :=
      if 3 ≤ spacedLines then (if 3 * n < 5 * spacedLines then 15 + 10 else 15) else 0
    let total := (lines.map List.length).sum
    let deviation := (lines.map (fun l => Nat.dist (n * l.length) total)).sum
    let score4 : Nat := if 10 * deviation < 3 * n * total then 15 else 0
    let numericLines := (lines.filter (fun l => l.any isDigitChar)).length
    let score5 : Nat := if n < 2 * numericLines then 10 else 0
    let confidence : ℚ := Rat.divInt (score1 + score2 + score3 + score4 + score5) 120
    (decide (Rat.divInt 2 5 < confidence), confidence)

/-- `^\s*\d+[\.)]\s+`. -/
def isNumberedLine (l : Str) : Bool :=
  let r := l.dropWhile jsWs
  let ds := r.takeWhile isDigitChar
  !ds.isEmpty &&
    (match r.drop ds.length with
     | p :: rest =>
       (p == '.' || p == ')') && (match rest with | c2 :: _ => jsWs c2 | [] => false)
     | [] => false)

/-- `^\s*[•\-*○►▪]\s+`. -/
def isBulletLine (l : Str) : Bool :=
  match l.dropWhile jsWs with
  | b :: rest =>
    (b == '•' || b == '-' || b == '*' || b == '○' || b == '►' || b == '▪') &&
      (match rest with | c2 :: _ => jsWs c2 | [] => false)
  | [] => false

/-- `^\s{2,}`. -/
def isIndentedLine (l : Str) : Bool :=
  match l with
  | a :: b :: _ => jsWs a && jsWs b
  | _ => false

def detectList (text : Str) : Bool × ℚ :=
  let lines := detectorLines text
  if lines.length < 2 then (false, 0)
  else
    let n := lines.length
    let numberedLines := (lines.filter isNumberedLine).length
    let score1 : Nat :=
      if 2 ≤ numberedLines then (if 7 * n < 10 * numberedLines then 40 + 20 else 40) else 0
    let bulletLines := (lines.filter isBulletLine).length
    let score2 : Nat :=
      if 2 ≤ bulletLines then (if 7 * n < 10 * bulletLines then 30 + 15 else 30) else 0
    let indentedLines := (lines.filter isIndentedLine).length
    let score3 : Nat := if n < 2 * indentedLines then 10 else 0
    let confidence : ℚ := Rat.divInt (score1 + score2 + score3) 115
    (decide (Rat.divInt 7 20 < confidence), confidence)

def headingKeywordList : List Str :=
  [("summary").data, ("skills").data, ("experience").data, ("education").data,
   ("projects").data, ("certifications").data, ("about").data, ("overview").data,
   ("background").data, ("qualifications").data]

/-- `^(summary|skills|...)/i`: case-insensitive keyword prefix. -/
def hasHeadingKeyword (l : Str) : Bool :=
  headingKeywordList.any (fun kw => startsWithStr (l.map lowerizeChar) kw)

def isMdMark (c : Char) : Bool := c == '#' || c == '*'

/-- `^[#*]{1,3}\s`. -/
def mdHeadingStart (l : Str) : Bool :=
  match l with
  | c1 :: c2 :: c3 :: c4 :: _ =>
    (isMdMark c1 && jsWs c2) || (isMdMark c1 && isMdMark c2 && jsWs c3) ||
    (isMdMark c1 && isMdMark c2 && isMdMark c3 && jsWs c4)
  | [c1, c2, c3] => (isMdMark c1 && jsWs c2) || (isMdMark c1 && isMdMark c2 && jsWs c3)
  | [c1, c2] => isMdMark c1 && jsWs c2
  | _ => false

/-- `/\*\*/.test(l)`. -/
def hasDoubleStar : Str → Bool
  | '*' :: '*' :: _ => true
  | _ :: rest => hasDoubleStar rest
  | [] => false

def detectHeading (text : Str) : Bool × ℚ :=
  let trimmed := trimStr text
  let lines := detectorLines trimmed
  if lines.length ≠ 1 then (false, 0)
  else
    let line := lines.headD []
    let score1 : Nat := if line.length < 60 then (if line.length < 40 then 20 + 10 else 20) else 0
    let isAllCaps := decide (line = line.map upperizeChar) && line.any isUpperAZ
    let isTitleCase := match line with | c1 :: c2 :: _ => isUpperAZ c1 && isLowerAZ c2 | _ => false
    let score2 : Nat := if isAllCaps then 30 else if isTitleCase then 20 else 0
    let endsPunct := match line.getLast? with
      | some c => c == '.' || c == '!' || c == '?'
      | none => false
    let score3 : Nat := if !endsPunct then 15 else 0
    let score4 : Nat := if hasHeadingKeyword line then 25 else 0
    let score5 : Nat := if mdHeadingStart line || hasDoubleStar line then 20 else 0
    let confidence : ℚ := Rat.divInt (score1 + score2 + score3 + score4 + score5) 120
    (decide (Rat.divInt 2 5 < confidence), confidence)

/-- `^(page\s+)?\d+(\s*\/\s*\d+)?$/i` (slash-only tail). -/
def hfTail (l : Str) : Bool :=
  match l with
  | [] => true
  | _ =>
    match l.dropWhile jsWs with
    | '/' :: r2 => digitsThenEnd (r2.dropWhile jsWs)
    | _ => false

def hfCore (l : Str) : Bool :=
  let ds := l.takeWhile isDigitChar
  !ds.isEmpty && hfTail (l.drop ds.length)

def hfPageWord (l : Str) : Bool :=
  match l with
  | p :: a :: g :: e :: r =>
    (p == 'p' || p == 'P') && (a == 'a' || a == 'A') && (g == 'g' || g == 'G') &&
    (e == 'e' || e == 'E') &&
    (!(r.takeWhile jsWs).isEmpty && hfCore (r.dropWhile jsWs))
  | _ => false

def hfPagePattern (l : Str) : Bool := hfPageWord l || hfCore l

/-- `^(confidential|draft|proprietary|copyright|©|\d{4})/i`. -/
def hfCommonPattern (l : Str) : Bool :=
  let lw := l.map lowerizeChar
  startsWithStr lw (("confidential").data) || startsWithStr lw (("draft").data) ||
  startsWithStr lw (("proprietary").data) || startsWithStr lw (("copyright").data) ||
  (match l with | '©' :: _ => true | _ => false) ||
  (4 ≤ l.length && (l.take 4).all isDigitChar)

/-- `^(https?:\/\/|www\.|[\w.-]+@[\w.-]+\.\w+)$/i`: note that the first two
alternatives must match the whole trimmed string, so they only accept the
exact strings `http://`, `https://` and `www.` (case-insensitively). -/
def hfUrlPattern (l : Str) : Bool :=
  let lw := l.map lowerizeChar
  decide (lw = ("http://").data) || decide (lw = ("https://").data) ||
  decide (lw = ("www.").data) || emailLine l

def detectHeaderFooter (text : Str) : Bool :=
  let trimmed := trimStr text
  hfPagePattern trimmed ||
  ((trimmed.length < 30 && 0 < trimmed.length) && hfCommonPattern trimmed) ||
  hfUrlPattern trimmed

def analyzeContentBlock (text : Str) (startLine endLine : Nat) : ContentBlock :=
  if detectHeaderFooter text then
    ⟨text, ContentType.text, 0, startLine, endLine⟩
  else
    let headingResult := detectHeading text
    if headingResult.1 then ⟨text, ContentType.heading, headingResult.2, startLine, endLine⟩
    else
      let tableResult := detectTable text
      if tableResult.1 then ⟨text, ContentType.table, tableResult.2, startLine, endLine⟩
      else
        let listResult := detectList text
        if listResult.1 then ⟨text, ContentType.list, listResult.2, startLine, endLine⟩
        else ⟨text, ContentType.text, 1, startLine, endLine⟩

/-- `text.split(/\n\n+/)`: paragraphs separated by maximal runs of at least
two newlines.  `cur` is the current paragraph accumulated in reverse, `nl`
counts pending newlines. -/
def spGo (cur : Str) (nl : Nat) : Str → List Str
  | [] =>
    if 2 ≤ nl then [cur.reverse, []]
    else if nl = 1 then [('\n' :: cur).reverse]
    else [cur.reverse]
  | c :: rest =>
    if c = '\n' then spGo cur (nl + 1) rest
    else if 2 ≤ nl then cur.reverse :: spGo [c] 0 rest
    else if nl = 1 then spGo (c :: '\n' :: cur) 0 rest
    else spGo (c :: cur) 0 rest

def splitParas (t : Str) : List Str := spGo [] 0 t

def segGo : List Str → Nat → List ContentBlock
  | [], _ => []
  | p :: ps, lineNumber =>
    let trimmed := trimStr p
    if trimmed.isEmpty then segGo ps lineNumber
    else
      let lineCount := (splitNl trimmed).length
      let block := analyzeContentBlock trimmed lineNumber (lineNumber + lineCount - 1)
      (if (0 : ℚ) < block.confidence then [block] else []) ++
        segGo ps (lineNumber + lineCount + 2)

def segmentIntoBlocks (t : Str) : List ContentBlock := segGo (splitParas t) 0

/-! ## Chunker (`chunker.ts`) -/

/-- Discretization used when a block fits in one chunk. -/
def discretizeConf (q : ℚ) : ConfLevel :=
  if Rat.divInt 7 10 < q then ConfLevel.high
  else if Rat.divInt 2 5 < q then ConfLevel.medium
  else ConfLevel.low

def singleChunk (b : ContentBlock) (chunkIndex : Nat) : Chunk :=
  ⟨b.text, ⟨chunkIndex, none, b.type, discretizeConf b.confidence, false, b.text.length⟩⟩

def tableChunk (content : Str) (idx : Nat) : Chunk :=
  ⟨content, ⟨idx, none, ContentType.table, ConfLevel.high, false, content.length⟩⟩

/-- Header lines of a table block: the first line, plus the second when it
contains `-` or `=`. -/
def tableHeaderLines : List Str → List Str
  | [] => []
  | [l0] => [l0]
  | l0 :: l1 :: _ =>
    if containsChar '-' l1 || containsChar '=' l1 then [l0, l1] else [l0]

/-- The data-row loop of `chunkTableByRows`. -/
def ctrGo (cfg : ChunkingConfig) (header : Str) :
    List Str → List Chunk → Str → Nat → List Chunk × Str × Nat
  | [], chunks, cur, idx => (chunks, cur, idx)
  | line :: rest, chunks, cur, idx =>
    let pot := cur ++ '\n' :: line
    if cfg.tableMaxSize < pot.length ∧ cur ≠ header then
      ctrGo cfg header rest (chunks ++ [tableChunk cur idx]) (header ++ '\n' :: line) (idx + 1)
    else ctrGo cfg header rest chunks pot idx

/-- `chunkTableByRows`.  When the block's text has a single line the JS code
evaluates `lines[1].includes("=")` on `undefined` and throws; that path is
`none`. -/
def chunkTableByRows (b : ContentBlock) (startIndex : Nat) (cfg : ChunkingConfig) :
    Option (List Chunk) :=
  let lines := splitNl b.text
  match lines with
  | [] => none
  | [_] => none
  | _ :: _ :: _ =>
    let headerLines := tableHeaderLines lines
    let dataLines := lines.drop headerLines.length
    let header := joinNl headerLines
    let r := ctrGo cfg header dataLines [] header startIndex
    some (if header.length < r.2.1.length then r.1 ++ [tableChunk r.2.1 r.2.2] else r.1)

def listChunk (content : Str) (idx : Nat) : Chunk :=
  ⟨content, ⟨idx, none, ContentType.list, ConfLevel.high, false, content.length⟩⟩

/-- The item loop of `chunkListByItems`. -/
def cliGo (cfg : ChunkingConfig) :
    List Str → List Chunk → Str → Nat → List Chunk × Str × Nat
  | [], chunks, cur, idx => (chunks, cur, idx)
  | line :: rest, chunks, cur, idx =>
    if (trimStr line).isEmpty then cliGo cfg rest chunks cur idx
    else
      let pot := cur ++ (if cur.isEmpty then [] else ['\n']) ++ line
      if cfg.maxChunkSize < pot.length ∧ 0 < cur.length then
        cliGo cfg rest (chunks ++ [listChunk cur idx]) line (idx + 1)
      else cliGo cfg rest chunks pot idx

def chunkListByItems (b : ContentBlock) (startIndex : Nat) (cfg : ChunkingConfig) :
    List Chunk :=
  let r := cliGo cfg (splitNl b.text) [] [] startIndex
  if r.2.1.isEmpty then r.1 else r.1 ++ [listChunk r.2.1 r.2.2]

/-- `/[^.!?]+[.!?]+/g` matching: `body` and `puncts` hold the current run
in reverse; a trailing run without terminal punctuation yields no match. -/
def ssGo (body puncts : Str) : Str → List Str
  | [] => if !body.isEmpty && !puncts.isEmpty then [body.reverse ++ puncts.reverse] else []
  | c :: rest =>
    if c == '.' || c == '!' || c == '?' then
      if body.isEmpty then ssGo [] [] rest
      else ssGo body (c :: puncts) rest
    else
      if puncts.isEmpty then ssGo (c :: body) [] rest
      else (body.reverse ++ puncts.reverse) :: ssGo [c] [] rest

/-- `text.match(/[^.!?]+[.!?]+/g) || [text]`. -/
def sentencesOf (t : Str) : List Str :=
  let r := ssGo [] [] t
  if r.isEmpty then [t] else r

/-- Chunk emitted mid-loop or by the large-remainder branch of
`chunkTextBySentences`. -/
def midTextChunk (ty : ContentType) (conf : ℚ) (content : Str) (idx : Nat) : Chunk :=
  ⟨content,
   ⟨idx, none, ty, (if Rat.divInt 7 10 < conf then ConfLevel.high else ConfLevel.medium),
    false, content.length⟩⟩

/-- The sentence loop of `chunkTextBySentences`. -/
def ctsGo (cfg : ChunkingConfig) (ty : ContentType) (conf : ℚ) :
    List Str → List Chunk → Str → Nat → List Chunk × Str × Nat
  | [], chunks, cur, idx => (chunks, cur, idx)
  | s :: rest, chunks, cur, idx =>
    let t := trimStr s
    if t.isEmpty then ctsGo cfg ty conf rest chunks cur idx
    else
      let pot := cur ++ (if cur.isEmpty then [] else [' ']) ++ t
      if cfg.maxChunkSize < pot.length ∧ cfg.minChunkSize ≤ cur.length then
        ctsGo cfg ty conf rest (chunks ++ [midTextChunk ty conf cur idx]) t (idx + 1)
      else ctsGo cfg ty conf rest chunks pot idx

/-- Merge a too-small final fragment into the last emitted chunk, updating
its `originalLength` to the new content length. -/
def mergeIntoLast (chunks : List Chunk) (cur : Str) : List Chunk :=
  match chunks.getLast? with
  | none => chunks
  | some last =>
    chunks.dropLast ++
      [⟨last.content ++ ' ' :: cur,
        {last.metadata with originalLength := (last.content ++ ' ' :: cur).length}⟩]

/-- The final-remainder handling of `chunkTextBySentences`. -/
def ctsFinalize (cfg : ChunkingConfig) (ty : ContentType) (conf : ℚ) :
    List Chunk × Str × Nat → List Chunk
  | (chunks, cur, idx) =>
    if ¬cur.isEmpty ∧ cfg.minChunkSize ≤ cur.length then
      chunks ++ [midTextChunk ty conf cur idx]
    else if ¬cur.isEmpty ∧ ¬chunks.isEmpty then
      mergeIntoLast chunks cur
    else if ¬cur.isEmpty then
      chunks ++ [⟨cur, ⟨idx, none, ty, ConfLevel.low, false, cur.length⟩⟩]
    else chunks

/-- The loop state of `chunkTextBySentences` after consuming all sentences. -/
def ctsLoop (b : ContentBlock) (startIndex : Nat) (cfg : ChunkingConfig) :
    List Chunk × Str × Nat :=
  ctsGo cfg b.type b.confidence (sentencesOf b.text) [] [] startIndex

def chunkTextBySentences (b : ContentBlock) (startIndex : Nat) (cfg : ChunkingConfig) :
    List Chunk :=
  ctsFinalize cfg b.type b.confidence (ctsLoop b startIndex cfg)

def chunkBlock (b : ContentBlock) (chunkIndex : Nat) (cfg : ChunkingConfig) :
    Option (List Chunk) :=
  let maxSize := if b.type = ContentType.table then cfg.tableMaxSize else cfg.maxChunkSize
  if b.text.length ≤ maxSize then some [singleChunk b chunkIndex]
  else if b.type = ContentType.table then chunkTableByRows b chunkIndex cfg
  else if b.type = ContentType.list then some (chunkListByItems b chunkIndex cfg)
  else some (chunkTextBySentences b chunkIndex cfg)

/-- `addOverlap`'s per-chunk transformation for positions `i > 0`. -/
def aoTransform (ov : Nat) (prev cur : Chunk) : Chunk :=
  let overlapText := takeRight ov prev.content
  if startsWithStr cur.content (overlapText.take 50) then
    ⟨cur.content, {cur.metadata with hasOverlap := false}⟩
  else
    ⟨overlapText ++ '\n' :: '\n' :: cur.content, {cur.metadata with hasOverlap := true}⟩

def aoGo (ov : Nat) : Chunk → List Chunk → List Chunk
  | _, [] => []
  | prev, c :: rest => aoTransform ov prev c :: aoGo ov c rest

def addOverlap (chunks : List Chunk) (ov : Nat) : List Chunk :=
  if chunks.length ≤ 1 ∨ ov = 0 then chunks
  else
    match chunks with
    | [] => []
    | c0 :: rest => ⟨c0.content, {c0.metadata with hasOverlap := false}⟩ :: aoGo ov c0 rest

/-- Stamp the caller's page number onto a block's chunks. -/
def stampPage (p : Option Nat) (chunks : List Chunk) : List Chunk :=
  match p with
  | none => chunks
  | some pn => chunks.map (fun c => ⟨c.content, {c.metadata with pageNumber := some pn}⟩)

/-- The per-block loop of `semanticChunk` (steps 3–4's accumulation). -/
def scGo (cfg : ChunkingConfig) (p : Option Nat) :
    List ContentBlock → Nat → Option (List Chunk)
  | [], _ => some []
  | b :: bs, idx =>
    match chunkBlock b idx cfg with
    | none => none
    | some bcs =>
      match scGo cfg p bs (idx + bcs.length) with
      | none => none
      | some rest => some (stampPage p bcs ++ rest)

/-- `semanticChunk` up to and including index assignment and page stamping,
before overlap injection and the final minimum-size filter. -/
def semanticChunkRaw (text : Str) (p : Option Nat) (cfg : ChunkingConfig) :
    Option (List Chunk) :=
  let cleaned := preprocessText text chunkerOptions
  let blocks := segmentIntoBlocks cleaned
  if blocks.isEmpty then some [] else scGo cfg p blocks 0

def semanticChunk (text : Str) (p : Option Nat) (cfg : ChunkingConfig) :
    Option (List Chunk) :=
  (semanticChunkRaw text p cfg).map (fun allChunks =>
    (addOverlap allChunks cfg.overlapSize).filter
      (fun ch => cfg.minChunkSize ≤ (trimStr ch.content).length))

/-- Total indexing helper used in theorem statements. -/
def chunkAt (cs : List Chunk) (i : Nat) : Chunk :=
  cs.getD i ⟨[], ⟨0, none, ContentType.text, ConfLevel.low, false, 0⟩⟩

/-- The indivisible units of a block, per the splitter its type dispatches
to: data rows for tables, lines for lists, trimmed sentences otherwise. -/
def unitsFit (b : ContentBlock) (cfg : ChunkingConfig) : Prop :=
  match b.type with
  | ContentType.table =>
    let lines := splitNl b.text
    let header := joinNl (tableHeaderLines lines)
    ∀ line ∈ lines.drop (tableHeaderLines lines).length,
      header.length + 1 + line.length ≤ cfg.tableMaxSize
  | ContentType.list =>
    ∀ line ∈ splitNl b.text, line.length ≤ cfg.maxChunkSize
  | _ =>
    ∀ s ∈ sentencesOf b.text, (trimStr s).length + cfg.minChunkSize ≤ cfg.maxChunkSize

/-! ## Concrete inputs used by counterexamples and witnesses -/

/-- A short sentence: total length 12 < default `minChunkSize` 100. -/
def sampleShortDoc : Str := ("Hello world.").data

/-- The spec's 5-line pipe-delimited table scenario. -/
def sampleTable : Str := ("Name|Age\n---|---\nAlice|30\nBob|25\nCarol|22").data

/-- A 135-character plain-prose line. -/
def sampleProse : Str :=
  ("the quick brown fox jumps over the lazy dog while the calm river flows under the old stone bridge near the quiet village every morning.").data

/-- Two short heading blocks followed by a prose block. -/
def sampleHeadingsDoc : Str := ("SUMMARY\n\nSKILLS\n\n").data ++ sampleProse

/-- A 200-character single "sentence" with no terminal punctuation. -/
def sampleLongRun : Str := List.replicate 200 'a'

/-- A small but valid configuration. -/
def smallConfig : ChunkingConfig := ⟨50, 10, 100, 5⟩

/-- Input on which the hyphen-rejoin rule cascades across passes. -/
def sampleHyphens : Str := ("a- b- c").data

/-- Representative noisy extracted text: page-number lines, repeated spaces,
an excessive blank-line run. -/
def sampleNoisy : Str :=
  ("Page 1\nJohn  Doe\n\n\n\n\nSoftware Engineer.\n123").data

/-- Four occurrences of a line whose trimmed length is exactly 5. -/
def sampleRepeatedFive : Str := ("abcde\nabcde\nabcde\nabcde").data

/-- A whitespace-only input. -/
def sampleWhitespace : Str := (" \t\n  \n").data

/-- A one-letter document. -/
def sampleTiny : Str := ("x").data

/-- A table block whose text exceeds `tableConfig.tableMaxSize`, so the
table splitter must cut it into several chunks. -/
def sampleTableBlock : ContentBlock :=
  ⟨("H|A\n1|2\n3|4\n5|6").data, ContentType.table, Rat.divInt 1 2, 0, 3⟩

/-- Config whose table budget (8) forces the sample table block to split. -/
def tableConfig : ChunkingConfig := ⟨50, 10, 8, 2⟩

/-- The three header-carrying chunks the table splitter produces for
`sampleTableBlock` under `tableConfig`. -/
def csTable : List Chunk :=
  [⟨("H|A\n1|2").data, ⟨0, none, ContentType.table, ConfLevel.high, false, 7⟩⟩,
   ⟨("H|A\n3|4").data, ⟨1, none, ContentType.table, ConfLevel.high, false, 7⟩⟩,
   ⟨("H|A\n5|6").data, ⟨2, none, ContentType.table, ConfLevel.high, false, 7⟩⟩]

/-- A text block whose sentence loop ends with a small remainder. -/
def sampleTextBlock : ContentBlock :=
  ⟨("Hi there. Bye.").data, ContentType.text, 1, 0, 0⟩

/-- Two chunks where the second already starts with the tail of the first. -/
def overlapChunkA : Chunk :=
  ⟨("abcdef").data, ⟨0, none, ContentType.text, ConfLevel.high, false, 6⟩⟩

def overlapChunkB : Chunk :=
  ⟨("defxyz").data, ⟨1, none, ContentType.text, ConfLevel.high, false, 6⟩⟩

/-- The chunk indices of a list of chunks, in order. -/
def idxMap (cs : List Chunk) : List Nat := cs.map (fun c => c.metadata.chunkIndex)

/-- Two plain six-letter blocks, for exercising overlap injection. -/
def sampleTwoBlocks : Str := ("abcdef\n\nuvwxyz").data

/-- Config with small sizes and a 3-character overlap. -/
def overlapConfig : ChunkingConfig := ⟨50, 3, 100, 2⟩

/-- The raw (pre-overlap) chunks of `sampleTwoBlocks` under `overlapConfig`. -/
def preTwo : List Chunk :=
  [⟨("abcdef").data, ⟨0, none, ContentType.text, ConfLevel.high, false, 6⟩⟩,
   ⟨("uvwxyz").data, ⟨1, none, ContentType.text, ConfLevel.high, false, 6⟩⟩]

/-- The returned chunks of `sampleTwoBlocks` under `overlapConfig`. -/
def csTwo : List Chunk :=
  [⟨("abcdef").data, ⟨0, none, ContentType.text, ConfLevel.high, false, 6⟩⟩,
   ⟨("def\n\nuvwxyz").data, ⟨1, none, ContentType.text, ConfLevel.high, true, 6⟩⟩]

/-- Config under which the sample text block leaves a small final
fragment: max 10, no overlap, min 5. -/
def textConfig : ChunkingConfig := ⟨10, 0, 20, 5⟩

/-- Invariant of every chunk before overlap injection: no overlap flag and
`originalLength` agreeing with the content length. -/
def preChunkInv (ch : Chunk) : Prop :=
  ch.metadata.hasOverlap = false ∧ ch.metadata.originalLength = ch.content.length

/-- `unitsFit` is decidable, so witnesses can check it on concrete blocks. -/
instance (b : ContentBlock) (cfg : ChunkingConfig) : Decidable (unitsFit b cfg) :=
  decidable_of_iff
    ((b.type = ContentType.table →
        ∀ line ∈ (splitNl b.text).drop (tableHeaderLines (splitNl b.text)).length,
          (joinNl (tableHeaderLines (splitNl b.text))).length + 1 + line.length ≤
            cfg.tableMaxSize) ∧
      (b.type = ContentType.list →
        ∀ line ∈ splitNl b.text, line.length ≤ cfg.maxChunkSize) ∧
      (b.type ≠ ContentType.table → b.type ≠ ContentType.list →
        ∀ s ∈ sentencesOf b.text,
          (trimStr s).length + cfg.minChunkSize ≤ cfg.maxChunkSize))
    (by cases hb : b.type <;> simp [unitsFit, hb])

/-- Every character of the string is JS whitespace. -/
def wsOnly (l : Str) : Prop := ∀ c ∈ l, jsWs c = true

/-! ## Basic lemmas about the string utilities -/

theorem splitNl_ne_nil (l : Str) : splitNl l ≠ [] := by
  induction l with
  | nil => simp [splitNl]
  | cons c rest ih =>
    simp only [splitNl]
    split
    · simp
    · cases h : splitNl rest with
      | nil => simp
      | cons a as => simp

theorem joinNl_splitNl (l : Str) : joinNl (splitNl l) = l := by
  induction l with
  | nil => simp [splitNl, joinNl]
  | cons c rest ih =>
    simp only [splitNl]
    split
    · rename_i hc
      subst hc
      cases h : splitNl rest with
      | nil => exact absurd h (splitNl_ne_nil rest)
      | cons a as =>
        rw [h] at ih
        simp [joinNl, ih]
    · cases h : splitNl rest with
      | nil => exact absurd h (splitNl_ne_nil rest)
      | cons a as =>
        rw [h] at ih
        cases as with
        | nil =>
          simp only [joinNl] at ih ⊢
          rw [ih]
        | cons b bs =>
          simp only [joinNl, List.cons_append] at ih ⊢
          rw [ih]

theorem startsWithStr_iff (s p : Str) : startsWithStr s p = true ↔ ∃ r, s = p ++ r := by
  induction p generalizing s with
  | nil => simp [startsWithStr]
  | cons pc ps ih =>
    cases s with
    | nil => simp [startsWithStr]
    | cons c cs =>
      simp only [startsWithStr, Bool.and_eq_true, beq_iff_eq, ih]
      constructor
      · rintro ⟨hc, r, hr⟩
        exact ⟨r, by simp [hc, hr]⟩
      · rintro ⟨r, hr⟩
        simp only [List.cons_append, List.cons.injEq] at hr
        exact ⟨hr.1, r, hr.2⟩

theorem startsWithStr_take (s p : Str) (k : Nat) (h : startsWithStr s p = true) :
    startsWithStr s (p.take k) = true := by
  rw [startsWithStr_iff] at h ⊢
  obtain ⟨r, hr⟩ := h
  exact ⟨p.drop k ++ r, by rw [hr, ← List.append_assoc, List.take_append_drop]⟩

theorem takeRight_length_le (n : Nat) (l : Str) : (takeRight n l).length ≤ n := by
  simp [takeRight]
  omega

theorem range'_succ_right (n s : Nat) : List.range' s (n + 1) = List.range' s n ++ [s + n] := by
  induction n generalizing s with
  | zero => simp [List.range']
  | succ m ih =>
    show s :: List.range' (s + 1) (m + 1) = (s :: List.range' (s + 1) m) ++ [s + (m + 1)]
    rw [ih (s + 1)]
    simp only [List.cons_append]
    rw [show s + 1 + m = s + (m + 1) by omega]

theorem range'_add_right (n m s : Nat) :
    List.range' s (n + m) = List.range' s n ++ List.range' (s + n) m := by
  induction m generalizing n with
  | zero => simp [List.range']
  | succ k ih =>
    rw [show n + (k + 1) = (n + k) + 1 by omega, range'_succ_right, ih,
      range'_succ_right k (s + n)]
    simp only [List.append_assoc]
    rw [show s + (n + k) = s + n + k by omega]

theorem getLast?_mem_of_eq (l : List Chunk) (x : Chunk) (h : l.getLast? = some x) : x ∈ l := by
  induction l with
  | nil => simp at h
  | cons a as ih =>
    cases as with
    | nil => simp at h; simp [h]
    | cons b bs =>
      rw [List.getLast?_cons_cons] at h
      exact List.mem_cons_of_mem a (ih h)

/-! ## Whitespace-only inputs are erased by the preprocessor -/

theorem ws_not_word (c : Char) (h : jsWs c = true) : isWordChar c = false := by
  simp only [jsWs, isWordChar, Bool.or_eq_true, beq_iff_eq, decide_eq_true_eq] at h ⊢
  simp only [decide_eq_false_iff_not]
  omega

theorem ws_not_lower (c : Char) (h : jsWs c = true) : isLowerAZ c = false := by
  simp only [jsWs, isLowerAZ, Bool.or_eq_true, beq_iff_eq, decide_eq_true_eq] at h ⊢
  simp only [decide_eq_false_iff_not]
  omega

theorem wsOnly_cons (c : Char) (l : Str) (hc : jsWs c = true) (hl : wsOnly l) :
    wsOnly (c :: l) := by
  intro x hx
  rcases List.mem_cons.mp hx with h | h
  · exact h ▸ hc
  · exact hl x h

theorem wsOnly_of_cons (c : Char) (l : Str) (h : wsOnly (c :: l)) :
    jsWs c = true ∧ wsOnly l :=
  ⟨h c (List.mem_cons_self c l), fun x hx => h x (List.mem_cons_of_mem c hx)⟩

theorem wsOnly_append (a b : Str) (ha : wsOnly a) (hb : wsOnly b) : wsOnly (a ++ b) := by
  intro x hx
  rcases List.mem_append.mp hx with h | h
  · exact ha x h
  · exact hb x h

theorem wsOnly_dropWhile_ws_nil (l : Str) (h : wsOnly l) : l.dropWhile jsWs = [] := by
  induction l with
  | nil => simp
  | cons c rest ih =>
    obtain ⟨hc, hrest⟩ := wsOnly_of_cons c rest h
    simp [List.dropWhile_cons, hc, ih hrest]

theorem wsOnly_trimStr_nil (l : Str) (h : wsOnly l) : trimStr l = [] := by
  simp [trimStr, wsOnly_dropWhile_ws_nil l h]

theorem wsOnly_crlfToNl (l : Str) (h : wsOnly l) : wsOnly (crlfToNl l) := by
  induction l using crlfToNl.induct with
  | case1 c c2 rest hif ih =>
    obtain ⟨hc, hrest⟩ := wsOnly_of_cons c (c2 :: rest) h
    rw [crlfToNl, if_pos hif]
    exact wsOnly_cons _ _ (by decide) (ih (wsOnly_of_cons c2 rest hrest).2)
  | case2 c c2 rest hif ih =>
    obtain ⟨hc, hrest⟩ := wsOnly_of_cons c (c2 :: rest) h
    rw [crlfToNl, if_neg hif]
    exact wsOnly_cons _ _ hc (ih hrest)
  | case3 l hl =>
    cases l with
    | nil => exact h
    | cons a rest =>
      cases rest with
      | nil => exact h
      | cons b bs => exact absurd rfl (hl a b bs)

theorem wsOnly_crToNl (l : Str) (h : wsOnly l) : wsOnly (crToNl l) := by
  intro x hx
  simp only [crToNl, List.mem_map] at hx
  obtain ⟨c, hc, he⟩ := hx
  by_cases hcr : c = '\r'
  · simp [hcr] at he
    subst he
    decide
  · simp [hcr] at he
    exact he ▸ h c hc

theorem wsOnly_collapseSpaces (b : Bool) (l : Str) (h : wsOnly l) :
    wsOnly (collapseSpaces b l) := by
  induction l generalizing b with
  | nil => intro x hx; simp [collapseSpaces] at hx
  | cons c rest ih =>
    obtain ⟨hc, hrest⟩ := wsOnly_of_cons c rest h
    simp only [collapseSpaces]
    split
    · split
      · exact ih true hrest
      · exact wsOnly_cons _ _ (by decide) (ih true hrest)
    · exact wsOnly_cons _ _ hc (ih false hrest)

theorem wsOnly_collapseTabs (b : Bool) (l : Str) (h : wsOnly l) :
    wsOnly (collapseTabs b l) := by
  induction l generalizing b with
  | nil => intro x hx; simp [collapseTabs] at hx
  | cons c rest ih =>
    obtain ⟨hc, hrest⟩ := wsOnly_of_cons c rest h
    simp only [collapseTabs]
    split
    · split
      · exact ih true hrest
      · exact wsOnly_cons _ _ (by decide) (ih true hrest)
    · exact wsOnly_cons _ _ hc (ih false hrest)

theorem wsOnly_collapseNls (n : Nat) (l : Str) (h : wsOnly l) :
    wsOnly (collapseNls n l) := by
  induction l generalizing n with
  | nil => intro x hx; simp [collapseNls] at hx
  | cons c rest ih =>
    obtain ⟨hc, hrest⟩ := wsOnly_of_cons c rest h
    simp only [collapseNls]
    split
    · split
      · exact wsOnly_cons _ _ (by decide) (ih _ hrest)
      · exact ih _ hrest
    · exact wsOnly_cons _ _ hc (ih 0 hrest)

theorem wsOnly_normalizeWhitespace (l : Str) (h : wsOnly l) :
    wsOnly (normalizeWhitespace l) :=
  wsOnly_collapseNls 0 _ (wsOnly_collapseTabs false _ (wsOnly_collapseSpaces false _
    (wsOnly_crToNl _ (wsOnly_crlfToNl _ h))))

theorem wsOnly_filter (p : Char → Bool) (l : Str) (h : wsOnly l) :
    wsOnly (l.filter p) :=
  fun x hx => h x (List.mem_of_mem_filter hx)

theorem wsOnly_hjGo (fuel : Nat) (l : Str) (h : wsOnly l) : wsOnly (hjGo fuel l) := by
  induction fuel generalizing l with
  | zero => rwa [hjGo]
  | succ f ih =>
    cases l with
    | nil => rw [hjGo]; exact h
    | cons c1 rest =>
      obtain ⟨hc1, hrest⟩ := wsOnly_of_cons c1 rest h
      rw [hjGo.eq_def]
      simp only [ws_not_word c1 hc1]
      exact wsOnly_cons _ _ hc1 (ih rest hrest)

theorem wsOnly_hyphenJoin (l : Str) (h : wsOnly l) : wsOnly (hyphenJoin l) :=
  wsOnly_hjGo l.length l h

theorem wsOnly_caseSpace (l : Str) (h : wsOnly l) : wsOnly (caseSpace l) := by
  induction l using caseSpace.induct with
  | case1 c1 c2 rest hif ih =>
    obtain ⟨hc1, hrest⟩ := wsOnly_of_cons c1 (c2 :: rest) h
    exact absurd hif.1 (by simp [ws_not_lower c1 hc1])
  | case2 c1 c2 rest hif ih =>
    obtain ⟨hc1, hrest⟩ := wsOnly_of_cons c1 (c2 :: rest) h
    rw [caseSpace, if_neg hif]
    exact wsOnly_cons _ _ hc1 (ih hrest)
  | case3 l hl =>
    cases l with
    | nil => exact h
    | cons a rest =>
      cases rest with
      | nil => exact h
      | cons b bs => exact absurd rfl (hl a b bs)

theorem wsOnly_ffToNls (l : Str) (h : wsOnly l) : wsOnly (ffToNls l) := by
  induction l with
  | nil => rwa [ffToNls]
  | cons c rest ih =>
    obtain ⟨hc, hrest⟩ := wsOnly_of_cons c rest h
    rw [ffToNls]
    split
    · exact wsOnly_cons _ _ (by decide) (wsOnly_cons _ _ (by decide) (ih hrest))
    · exact wsOnly_cons _ _ hc (ih hrest)

theorem wsOnly_removePDFArtifacts (l : Str) (h : wsOnly l) :
    wsOnly (removePDFArtifacts l) :=
  wsOnly_ffToNls _ (wsOnly_caseSpace _ (wsOnly_hyphenJoin _ (wsOnly_filter _ _ h)))

theorem wsOnly_splitNl (l : Str) (h : wsOnly l) : ∀ p ∈ splitNl l, wsOnly p := by
  induction l with
  | nil =>
    intro p hp
    simp [splitNl] at hp
    subst hp
    intro x hx
    simp at hx
  | cons c rest ih =>
    obtain ⟨hc, hrest⟩ := wsOnly_of_cons c rest h
    intro p hp
    rw [splitNl] at hp
    split at hp
    · rcases List.mem_cons.mp hp with he | he
      · subst he; intro x hx; simp at hx
      · exact ih hrest p he
    · rename_i hcnl
      cases hsp : splitNl rest with
      | nil => exact absurd hsp (splitNl_ne_nil rest)
      | cons a as =>
        rw [hsp] at hp
        rcases List.mem_cons.mp hp with he | he
        · subst he
          have ha : wsOnly a := ih hrest a (by rw [hsp]; exact List.mem_cons_self a as)
          exact wsOnly_cons c a hc ha
        · exact ih hrest p (by rw [hsp]; exact List.mem_cons_of_mem a he)

theorem wsOnly_joinNl (ps : List Str) (h : ∀ p ∈ ps, wsOnly p) : wsOnly (joinNl ps) := by
  induction ps with
  | nil => intro x hx; simp [joinNl] at hx
  | cons p rest ih =>
    cases rest with
    | nil =>
      show wsOnly (joinNl [p])
      rw [joinNl]
      exact h p (List.mem_cons_self p [])
    | cons q qs =>
      rw [joinNl]
      refine wsOnly_append _ _ (h p (List.mem_cons_self p _)) ?_
      refine wsOnly_cons _ _ (by decide) ?_
      exact ih (fun r hr => h r (List.mem_cons_of_mem p hr))

theorem wsOnly_removePageNumbers (l : Str) (h : wsOnly l) :
    wsOnly (removePageNumbers l) := by
  refine wsOnly_joinNl _ ?_
  intro p hp
  exact wsOnly_splitNl l h p (List.mem_of_mem_filter hp)

theorem wsOnly_removeRepeatedSections (l : Str) (h : wsOnly l) :
    wsOnly (removeRepeatedSections l) := by
  rw [removeRepeatedSections]
  split
  · refine wsOnly_joinNl _ ?_
    intro p hp
    exact wsOnly_splitNl l h p (List.mem_of_mem_filter hp)
  · exact h

theorem tryBullet_wsOnly (l : Str) (h : wsOnly l) : tryBullet l = none := by
  rw [tryBullet]
  simp [wsOnly_dropWhile_ws_nil l h]

theorem tryDash_wsOnly (l : Str) (h : wsOnly l) : tryDash l = none := by
  rw [tryDash]
  simp [wsOnly_dropWhile_ws_nil l h]

theorem tryNum_wsOnly (l : Str) (h : wsOnly l) : tryNum l = none := by
  rw [tryNum]
  simp [wsOnly_dropWhile_ws_nil l h]

theorem wsOnly_nlGo (tryR : Str → Option (Str × Char × Str))
    (hR : ∀ l, wsOnly l → tryR l = none) (fuel : Nat) (b : Bool) (l : Str)
    (h : wsOnly l) : wsOnly (nlGo tryR fuel b l) := by
  induction fuel generalizing b l with
  | zero => rwa [nlGo]
  | succ f ih =>
    cases l with
    | nil => rw [nlGo]; exact h
    | cons c rest =>
      obtain ⟨hc, hrest⟩ := wsOnly_of_cons c rest h
      cases b with
      | true =>
        rw [nlGo, if_pos rfl, hR _ h]
        exact wsOnly_cons _ _ hc (ih _ rest hrest)
      | false =>
        rw [nlGo, if_neg (by simp)]
        exact wsOnly_cons _ _ hc (ih _ rest hrest)

theorem wsOnly_normalizeLists (l : Str) (h : wsOnly l) : wsOnly (normalizeLists l) := by
  rw [normalizeLists]
  exact wsOnly_nlGo tryNum tryNum_wsOnly _ _ _
    (wsOnly_nlGo tryDash tryDash_wsOnly _ _ _
      (wsOnly_nlGo tryBullet tryBullet_wsOnly _ _ _ h))

theorem preprocessText_chunker_eq (t : Str) :
    preprocessText t chunkerOptions = trimStr (normalizeWhitespace (normalizeLists
      (removeRepeatedSections (removePageNumbers (removePDFArtifacts
        (normalizeWhitespace t)))))) := by
  simp only [preprocessText, chunkerOptions]
  simp

theorem preprocessText_wsOnly_chunker (t : Str) (h : wsOnly t) :
    preprocessText t chunkerOptions = [] := by
  rw [preprocessText_chunker_eq]
  exact wsOnly_trimStr_nil _ (wsOnly_normalizeWhitespace _ (wsOnly_normalizeLists _
    (wsOnly_removeRepeatedSections _ (wsOnly_removePageNumbers _
      (wsOnly_removePDFArtifacts _ (wsOnly_normalizeWhitespace _ h))))))

/-! ## `semanticChunk` never hits the unreachable table-splitter throw -/

theorem detectTable_isTable_lines (t : Str) (h : (detectTable t).1 = true) :
    2 ≤ (detectorLines t).length := by
  simp only [detectTable] at h
  split at h
  · simp at h
  · rename_i hn
    omega

theorem analyzeContentBlock_table (t : Str) (s e : Nat)
    (h : (analyzeContentBlock t s e).type = ContentType.table) :
    (detectTable t).1 = true := by
  simp only [analyzeContentBlock] at h
  split at h
  · simp at h
  · split at h
    · simp at h
    · split at h
      · rename_i ht
        exact ht
      · split at h
        · simp at h
        · simp at h

theorem analyzeContentBlock_text (t : Str) (s e : Nat) :
    (analyzeContentBlock t s e).text = t := by
  simp only [analyzeContentBlock]
  split
  · rfl
  · split
    · rfl
    · split
      · rfl
      · split
        · rfl
        · rfl

theorem segGo_shape (ps : List Str) (n : Nat) :
    ∀ b ∈ segGo ps n, ∃ s e, b = analyzeContentBlock b.text s e := by
  induction ps generalizing n with
  | nil => intro b hb; simp [segGo] at hb
  | cons p rest ih =>
    intro b hb
    simp only [segGo] at hb
    split at hb
    · exact ih _ b hb
    · rcases List.mem_append.mp hb with hmem | hmem
      · split at hmem
        · rcases List.mem_singleton.mp hmem with he
          refine ⟨n, n + (splitNl (trimStr p)).length - 1, ?_⟩
          rw [he, analyzeContentBlock_text]
        · simp at hmem
      · exact ih _ b hmem

theorem detectorLines_le_splitNl (t : Str) :
    (detectorLines t).length ≤ (splitNl t).length := by
  exact List.length_filter_le _ _

theorem chunkTableByRows_isSome (b : ContentBlock) (i : Nat) (cfg : ChunkingConfig)
    (h : 2 ≤ (splitNl b.text).length) :
    ∃ cs, chunkTableByRows b i cfg = some cs := by
  rw [chunkTableByRows]
  cases hl : splitNl b.text with
  | nil => rw [hl] at h; simp at h
  | cons l0 rest =>
    cases rest with
    | nil => rw [hl] at h; simp at h
    | cons l1 rest2 => exact ⟨_, rfl⟩

theorem chunkBlock_isSome (b : ContentBlock) (i : Nat) (cfg : ChunkingConfig)
    (hb : b.type = ContentType.table → 2 ≤ (splitNl b.text).length) :
    ∃ cs, chunkBlock b i cfg = some cs := by
  simp only [chunkBlock]
  by_cases hfit :
      b.text.length ≤ (if b.type = ContentType.table then cfg.tableMaxSize else cfg.maxChunkSize)
  · rw [if_pos hfit]
    exact ⟨_, rfl⟩
  · rw [if_neg hfit]
    by_cases ht : b.type = ContentType.table
    · rw [if_pos ht]
      exact chunkTableByRows_isSome b i cfg (hb ht)
    · rw [if_neg ht]
      by_cases hl : b.type = ContentType.list
      · rw [if_pos hl]
        exact ⟨_, rfl⟩
      · rw [if_neg hl]
        exact ⟨_, rfl⟩

theorem scGo_isSome (cfg : ChunkingConfig) (p : Option Nat) (bs : List ContentBlock)
    (idx : Nat)
    (hb : ∀ b ∈ bs, b.type = ContentType.table → 2 ≤ (splitNl b.text).length) :
    ∃ cs, scGo cfg p bs idx = some cs := by
  induction bs generalizing idx with
  | nil => exact ⟨[], rfl⟩
  | cons b rest ih =>
    obtain ⟨bcs, hbcs⟩ := chunkBlock_isSome b idx cfg (hb b (List.mem_cons_self b rest))
    obtain ⟨rcs, hrcs⟩ :=
      ih (idx + bcs.length) (fun x hx => hb x (List.mem_cons_of_mem b hx))
    refine ⟨stampPage p bcs ++ rcs, ?_⟩
    simp [scGo, hbcs, hrcs]

theorem segment_table_lines (t : Str) :
    ∀ b ∈ segmentIntoBlocks t, b.type = ContentType.table →
      2 ≤ (splitNl b.text).length := by
  intro b hb ht
  obtain ⟨s, e, he⟩ := segGo_shape (splitParas t) 0 b hb
  have hdet : (detectTable b.text).1 = true := by
    apply analyzeContentBlock_table b.text s e
    rw [← he]
    exact ht
  calc 2 ≤ (detectorLines b.text).length := detectTable_isTable_lines _ hdet
    _ ≤ (splitNl b.text).length := detectorLines_le_splitNl _

theorem semanticChunkRaw_isSome (t : Str) (p : Option Nat) (cfg : ChunkingConfig) :
    ∃ cs, semanticChunkRaw t p cfg = some cs := by
  rw [semanticChunkRaw]
  split
  · exact ⟨[], rfl⟩
  · exact scGo_isSome cfg p _ 0 (segment_table_lines _)


theorem segmentIntoBlocks_nil : segmentIntoBlocks [] = [] := rfl

set_option maxHeartbeats 1000000 in
/-- C3: for every input string (including empty, whitespace-only and
arbitrary text) and every config, `semanticChunk` terminates and returns a
value — the JS `lines[1]` access that would throw in `chunkTableByRows` is
unreachable, because a block classified `table` always has at least two
lines — and whitespace-only (hence also empty) input yields the empty
chunk list. -/
theorem c3_semanticChunk_never_throws (t : Str) (p : Option Nat) (cfg : ChunkingConfig) :
    ∃ cs, semanticChunk t p cfg = some cs ∧ (wsOnly t → cs = []) := by
  obtain ⟨raw, hraw⟩ := semanticChunkRaw_isSome t p cfg
  refine ⟨(addOverlap raw cfg.overlapSize).filter
      (fun ch => cfg.minChunkSize ≤ (trimStr ch.content).length), ?_, ?_⟩
  · rw [semanticChunk, hraw, Option.map_some']
  · intro hws
    have hblocks : segmentIntoBlocks (preprocessText t chunkerOptions) = [] := by
      rw [preprocessText_wsOnly_chunker t hws, segmentIntoBlocks_nil]
    have hrawnil : semanticChunkRaw t p cfg = some [] := by
      simp only [semanticChunkRaw, hblocks]
      rfl
    rw [hrawnil] at hraw
    obtain rfl : ([] : List Chunk) = raw := Option.some.inj hraw
    simp [addOverlap]

/-- C3 witness: the theorem applied to a concrete whitespace-only input. -/
theorem c3_witness :
    ∃ cs, semanticChunk sampleWhitespace none DEFAULT_CONFIG = some cs ∧ cs = [] := by
  obtain ⟨cs, h1, h2⟩ := c3_semanticChunk_never_throws sampleWhitespace none DEFAULT_CONFIG
  exact ⟨cs, h1, h2 (by unfold wsOnly; decide)⟩

/-! ## Repeated-line removal: the counted window is 6–99, not 5–99 -/

theorem isRepeatedLine_iff (ls : List Str) (t : Str) :
    isRepeatedLine ls t =
      decide (6 ≤ t.length ∧ t.length ≤ 99 ∧ 3 ≤ countOcc ls t) := by
  rw [isRepeatedLine, decide_eq_decide]
  omega

/-- C9 counterexample: the line `abcde` has trimmed length exactly 5 and
occurs four times, yet `removeRepeatedSections` keeps every occurrence
(the code counts only lines with trimmed length strictly greater than 5),
while the claim's inclusive window would remove them all. -/
theorem c9_counterexample :
    removeRepeatedSections sampleRepeatedFive = sampleRepeatedFive ∧
    removeRepeatedSectionsSpec sampleRepeatedFive = [] ∧
    (trimStr (("abcde").data)).length = 5 ∧
    countOcc (splitNl sampleRepeatedFive) (("abcde").data) = 4 := by
  refine ⟨by decide, by decide, by decide, by decide⟩

/-- C9 amended: `removeRepeatedSections` removes exactly the lines whose
trimmed content has length between 6 and 99 inclusive (i.e. strictly
greater than 5 and strictly less than 100) and occurs more than twice,
removing every occurrence of such lines and leaving all other lines
unchanged. -/
theorem c9_removeRepeated_characterization (t : Str) :
    removeRepeatedSections t =
      joinNl ((splitNl t).filter (fun line =>
        !decide (6 ≤ (trimStr line).length ∧ (trimStr line).length ≤ 99 ∧
          3 ≤ countOcc (splitNl t) (trimStr line)))) := by
  have hfc : (splitNl t).filter (fun line =>
      !decide (6 ≤ (trimStr line).length ∧ (trimStr line).length ≤ 99 ∧
        3 ≤ countOcc (splitNl t) (trimStr line))) =
      (splitNl t).filter (fun line => !isRepeatedLine (splitNl t) (trimStr line)) := by
    apply List.filter_congr
    intro a _
    rw [isRepeatedLine_iff]
  rw [hfc, removeRepeatedSections]
  split
  · rfl
  · rename_i hnone
    have hall : ∀ a ∈ splitNl t, isRepeatedLine (splitNl t) (trimStr a) = false := by
      intro a ha
      by_contra hcon
      exact hnone (List.any_eq_true.mpr ⟨a, ha, eq_true_of_ne_false hcon⟩)
    have : (splitNl t).filter (fun line => !isRepeatedLine (splitNl t) (trimStr line)) =
        splitNl t := by
      apply List.filter_eq_self.mpr
      intro a ha
      rw [hall a ha]
      rfl
    rw [this, joinNl_splitNl]

/-! ## Preprocessing is not idempotent: the hyphen-rejoin rule cascades -/

/-- C8 counterexample: `preprocessText` with default options maps
`"a- b- c"` to `"ab- c"`, and a second pass maps that to `"abc"` — the
hyphen-rejoin replacement creates a new `(\w)-\s+(\w)` match that the JS
continue-after-match scan of the first pass never revisits. -/
theorem c8_counterexample :
    preprocessText (preprocessText sampleHyphens defaultOptions) defaultOptions ≠
      preprocessText sampleHyphens defaultOptions := by
  decide

/-- C8 amended: one preprocessing pass is a fixpoint on representative
noisy extracted text (page-number lines, space runs, blank-line runs) —
idempotence holds for such inputs though not for every string. -/
theorem c8_idempotent_on_noisy_sample :
    preprocessText (preprocessText sampleNoisy defaultOptions) defaultOptions =
      preprocessText sampleNoisy defaultOptions := by
  decide

/-! ## The 5-line table scenario: detected as a table but then filtered out -/

/-- C7 counterexample: under the default config the pipe-table input yields
zero chunks from `semanticChunk`, not one — the single 41-character table
chunk is dropped by the final minimum-size filter (41 < 100). -/
theorem c7_counterexample :
    (semanticChunk sampleTable none DEFAULT_CONFIG).map List.length = some 0 ∧
    (0 : Nat) ≠ 1 := by
  refine ⟨by decide, by decide⟩

/-- C7 amended: the block is classified `table` with confidence 5/8 > 0.4
and the chunking stage produces exactly one chunk for it, but that chunk's
41 trimmed characters fall below `minChunkSize` 100, so the final filter
drops it and `semanticChunk` returns the empty list. -/
theorem c7_table_detected_then_filtered :
    (segmentIntoBlocks (preprocessText sampleTable chunkerOptions)).map
        (fun b => (b.type, b.confidence)) = [(ContentType.table, Rat.divInt 5 8)] ∧
    Rat.divInt 2 5 < Rat.divInt 5 8 ∧
    (semanticChunkRaw sampleTable none DEFAULT_CONFIG).map List.length = some 1 ∧
    semanticChunk sampleTable none DEFAULT_CONFIG = some [] := by
  refine ⟨by decide, by decide, by decide, by decide⟩

/-! ## Index contiguity breaks at the final filter -/

/-- C1 counterexample: after two short heading chunks are dropped by the
final minimum-size filter, the single returned chunk carries index 2, so
the first returned chunk's index is not the caller's base index 0 (and the
surviving indices are not contiguous with it). -/
theorem c1_counterexample :
    (semanticChunk sampleHeadingsDoc none DEFAULT_CONFIG).map
      (List.map (fun ch => ch.metadata.chunkIndex)) = some [2] ∧ (2 : Nat) ≠ 0 := by
  refine ⟨by decide, by decide⟩

/-- C10 counterexample: the same input returns exactly one chunk and its
`hasOverlap` is `true`, although no preceding chunk exists in the returned
list — its overlap text came from a pre-filter neighbour that the final
filter dropped. -/
theorem c10_counterexample :
    (semanticChunk sampleHeadingsDoc none DEFAULT_CONFIG).map
      (List.map (fun ch => (ch.metadata.hasOverlap, ch.metadata.chunkIndex))) =
      some [(true, 2)] := by
  decide

/-- C4 counterexample: a 200-character block with no sentence boundary is
returned as a single text chunk of 200 characters, exceeding
`maxChunkSize + overlapSize` (50 + 10) by 140 — more than any small
constant; longer runs exceed any fixed constant. -/
theorem c4_counterexample :
    (semanticChunk sampleLongRun none smallConfig).map
      (List.map (fun ch => (ch.metadata.contentType, ch.content.length))) =
      some [(ContentType.text, 200)] ∧
    smallConfig.maxChunkSize + smallConfig.overlapSize + 100 < 200 := by
  refine ⟨by decide, by decide⟩

/-! ## Chunk indices are contiguous before the final filter -/

theorem idxMap_append (a b : List Chunk) : idxMap (a ++ b) = idxMap a ++ idxMap b := by
  simp [idxMap]

theorem idxMap_length (a : List Chunk) : (idxMap a).length = a.length := by
  simp [idxMap]

/-- The loop invariant of the sentence splitter: chunk indices stay
contiguous from `i0` and the running index is the next free one. -/
theorem ctsGo_indices (cfg : ChunkingConfig) (ty : ContentType) (conf : ℚ)
    (sents : List Str) :
    ∀ chunks cur idx i0,
      idxMap chunks = List.range' i0 chunks.length →
      idx = i0 + chunks.length →
      idxMap (ctsGo cfg ty conf sents chunks cur idx).1 =
        List.range' i0 (ctsGo cfg ty conf sents chunks cur idx).1.length ∧
      (ctsGo cfg ty conf sents chunks cur idx).2.2 =
        i0 + (ctsGo cfg ty conf sents chunks cur idx).1.length := by
  induction sents with
  | nil =>
    intro chunks cur idx i0 h1 h2
    exact ⟨h1, h2⟩
  | cons s rest ih =>
    intro chunks cur idx i0 h1 h2
    simp only [ctsGo]
    split
    · exact ih chunks cur idx i0 h1 h2
    · split <;> split <;>
        first
          | exact ih chunks _ idx i0 h1 h2
          | exact ih (chunks ++ [midTextChunk ty conf cur idx]) (trimStr s) (idx + 1) i0
              (by
                rw [idxMap_append, h1]
                simp only [List.length_append, List.length_cons, List.length_nil]
                rw [show chunks.length + (0 + 1) = chunks.length + 1 by omega,
                  range'_succ_right]
                simp [idxMap, midTextChunk, h2])
              (by
                simp only [List.length_append, List.length_cons, List.length_nil]
                omega)

theorem mergeIntoLast_idxMap (chunks : List Chunk) (cur : Str) :
    idxMap (mergeIntoLast chunks cur) = idxMap chunks := by
  rcases List.eq_nil_or_concat chunks with h | ⟨L, b, h⟩
  · subst h; rfl
  · subst h
    simp only [List.concat_eq_append]
    rw [mergeIntoLast, List.getLast?_concat, List.dropLast_concat]
    rw [idxMap_append, idxMap_append]
    simp [idxMap]

theorem ctsFinalize_idxMap (cfg : ChunkingConfig) (ty : ContentType) (conf : ℚ)
    (st : List Chunk × Str × Nat)
    (h1 : idxMap st.1 = List.range' i0 st.1.length)
    (h2 : st.2.2 = i0 + st.1.length) :
    idxMap (ctsFinalize cfg ty conf st) =
      List.range' i0 (ctsFinalize cfg ty conf st).length := by
  obtain ⟨chunks, cur, idx⟩ := st
  simp only at h1 h2
  rw [ctsFinalize]
  split
  · rw [idxMap_append, h1]
    simp only [List.length_append, List.length_cons, List.length_nil]
    rw [show chunks.length + (0 + 1) = chunks.length + 1 by omega, range'_succ_right]
    simp [idxMap, midTextChunk, h2]
  · split
    · have hlen : (mergeIntoLast chunks cur).length = chunks.length := by
        rcases List.eq_nil_or_concat chunks with hc | ⟨L, b, hc⟩
        · subst hc; rfl
        · subst hc
          simp only [List.concat_eq_append]
          rw [mergeIntoLast, List.getLast?_concat, List.dropLast_concat]
          simp
      rw [mergeIntoLast_idxMap, hlen, h1]
    · split
      · rw [idxMap_append, h1]
        simp only [List.length_append, List.length_cons, List.length_nil]
        rw [show chunks.length + (0 + 1) = chunks.length + 1 by omega, range'_succ_right]
        simp [idxMap, h2]
      · exact h1

theorem chunkTextBySentences_idxMap (b : ContentBlock) (i : Nat) (cfg : ChunkingConfig) :
    idxMap (chunkTextBySentences b i cfg) =
      List.range' i (chunkTextBySentences b i cfg).length := by
  rw [chunkTextBySentences]
  obtain ⟨h1, h2⟩ := ctsGo_indices cfg b.type b.confidence (sentencesOf b.text)
    [] [] i i (by simp [idxMap, List.range']) (by simp)
  exact ctsFinalize_idxMap cfg b.type b.confidence _ h1 h2

theorem cliGo_indices (cfg : ChunkingConfig) (lines : List Str) :
    ∀ chunks cur idx i0,
      idxMap chunks = List.range' i0 chunks.length →
      idx = i0 + chunks.length →
      idxMap (cliGo cfg lines chunks cur idx).1 =
        List.range' i0 (cliGo cfg lines chunks cur idx).1.length ∧
      (cliGo cfg lines chunks cur idx).2.2 =
        i0 + (cliGo cfg lines chunks cur idx).1.length := by
  induction lines with
  | nil =>
    intro chunks cur idx i0 h1 h2
    exact ⟨h1, h2⟩
  | cons line rest ih =>
    intro chunks cur idx i0 h1 h2
    simp only [cliGo]
    split
    · exact ih chunks cur idx i0 h1 h2
    · split <;> split <;>
        first
          | exact ih chunks _ idx i0 h1 h2
          | exact ih (chunks ++ [listChunk cur idx]) line (idx + 1) i0
              (by
                rw [idxMap_append, h1]
                simp only [List.length_append, List.length_cons, List.length_nil]
                rw [show chunks.length + (0 + 1) = chunks.length + 1 by omega,
                  range'_succ_right]
                simp [idxMap, listChunk, h2])
              (by
                simp only [List.length_append, List.length_cons, List.length_nil]
                omega)

theorem chunkListByItems_idxMap (b : ContentBlock) (i : Nat) (cfg : ChunkingConfig) :
    idxMap (chunkListByItems b i cfg) =
      List.range' i (chunkListByItems b i cfg).length := by
  rw [chunkListByItems]
  obtain ⟨h1, h2⟩ := cliGo_indices cfg (splitNl b.text) [] [] i i
    (by simp [idxMap, List.range']) (by simp)
  split
  · exact h1
  · rw [idxMap_append, h1]
    simp only [List.length_append, List.length_cons, List.length_nil]
    rw [show (cliGo cfg (splitNl b.text) [] [] i).1.length + (0 + 1) =
      (cliGo cfg (splitNl b.text) [] [] i).1.length + 1 by omega, range'_succ_right]
    simp [idxMap, listChunk, h2]

theorem ctrGo_indices (cfg : ChunkingConfig) (header : Str) (lines : List Str) :
    ∀ chunks cur idx i0,
      idxMap chunks = List.range' i0 chunks.length →
      idx = i0 + chunks.length →
      idxMap (ctrGo cfg header lines chunks cur idx).1 =
        List.range' i0 (ctrGo cfg header lines chunks cur idx).1.length ∧
      (ctrGo cfg header lines chunks cur idx).2.2 =
        i0 + (ctrGo cfg header lines chunks cur idx).1.length := by
  induction lines with
  | nil =>
    intro chunks cur idx i0 h1 h2
    exact ⟨h1, h2⟩
  | cons line rest ih =>
    intro chunks cur idx i0 h1 h2
    simp only [ctrGo]
    split
    · exact ih (chunks ++ [tableChunk cur idx]) (header ++ '\n' :: line) (idx + 1) i0
        (by
          rw [idxMap_append, h1]
          simp only [List.length_append, List.length_cons, List.length_nil]
          rw [show chunks.length + (0 + 1) = chunks.length + 1 by omega,
            range'_succ_right]
          simp [idxMap, tableChunk, h2])
        (by
          simp only [List.length_append, List.length_cons, List.length_nil]
          try omega)
    · exact ih chunks _ idx i0 h1 h2

theorem chunkTableByRows_idxMap (b : ContentBlock) (i : Nat) (cfg : ChunkingConfig)
    (cs : List Chunk) (h : chunkTableByRows b i cfg = some cs) :
    idxMap cs = List.range' i cs.length := by
  rw [chunkTableByRows] at h
  cases hl : splitNl b.text with
  | nil => rw [hl] at h; exact absurd h (by simp)
  | cons l0 rest =>
    cases rest with
    | nil => rw [hl] at h; exact absurd h (by simp)
    | cons l1 rest2 =>
      rw [hl] at h
      simp only [Option.some.injEq] at h
      obtain ⟨hg1, hg2⟩ := ctrGo_indices cfg
        (joinNl (tableHeaderLines (l0 :: l1 :: rest2)))
        ((l0 :: l1 :: rest2).drop (tableHeaderLines (l0 :: l1 :: rest2)).length)
        [] (joinNl (tableHeaderLines (l0 :: l1 :: rest2))) i i
        (by simp [idxMap, List.range']) (by simp)
      rw [← h]
      split
      · rw [idxMap_append, hg1]
        simp only [List.length_append, List.length_cons, List.length_nil]
        rw [show ∀ m : Nat, m + (0 + 1) = m + 1 from fun m => by omega, range'_succ_right]
        simp [idxMap, tableChunk, hg2]
      · exact hg1

theorem stampPage_idxMap (p : Option Nat) (cs : List Chunk) :
    idxMap (stampPage p cs) = idxMap cs := by
  cases p with
  | none => rfl
  | some pn => simp [stampPage, idxMap]

theorem stampPage_length (p : Option Nat) (cs : List Chunk) :
    (stampPage p cs).length = cs.length := by
  cases p with
  | none => rfl
  | some pn => simp [stampPage]

theorem chunkBlock_idxMap (b : ContentBlock) (i : Nat) (cfg : ChunkingConfig)
    (cs : List Chunk) (h : chunkBlock b i cfg = some cs) :
    idxMap cs = List.range' i cs.length := by
  simp only [chunkBlock] at h
  by_cases hfit :
      b.text.length ≤ (if b.type = ContentType.table then cfg.tableMaxSize else cfg.maxChunkSize)
  · rw [if_pos hfit] at h
    simp only [Option.some.injEq] at h
    rw [← h]
    simp [idxMap, singleChunk, List.range']
  · rw [if_neg hfit] at h
    by_cases ht : b.type = ContentType.table
    · rw [if_pos ht] at h
      exact chunkTableByRows_idxMap b i cfg cs h
    · rw [if_neg ht] at h
      by_cases hli : b.type = ContentType.list
      · rw [if_pos hli] at h
        simp only [Option.some.injEq] at h
        rw [← h]
        exact chunkListByItems_idxMap b i cfg
      · rw [if_neg hli] at h
        simp only [Option.some.injEq] at h
        rw [← h]
        exact chunkTextBySentences_idxMap b i cfg

theorem scGo_idxMap (cfg : ChunkingConfig) (p : Option Nat) (bs : List ContentBlock) :
    ∀ idx l, scGo cfg p bs idx = some l → idxMap l = List.range' idx l.length := by
  induction bs with
  | nil =>
    intro idx l h
    simp only [scGo, Option.some.injEq] at h
    rw [← h]
    simp [idxMap, List.range']
  | cons b rest ih =>
    intro idx l h
    rw [scGo] at h
    cases hb : chunkBlock b idx cfg with
    | none => rw [hb] at h; simp at h
    | some bcs =>
      simp only [hb] at h
      cases hr : scGo cfg p rest (idx + bcs.length) with
      | none => rw [hr] at h; simp at h
      | some rcs =>
        rw [hr] at h
        simp only [Option.some.injEq] at h
        rw [← h, idxMap_append, stampPage_idxMap, chunkBlock_idxMap b idx cfg bcs hb,
          ih _ _ hr]
        simp only [List.length_append, stampPage_length]
        rw [range'_add_right]

theorem aoTransform_idx (ov : Nat) (prev cur : Chunk) :
    (aoTransform ov prev cur).metadata.chunkIndex = cur.metadata.chunkIndex := by
  rw [aoTransform]
  split <;> rfl

theorem aoGo_idxMap (ov : Nat) (rest : List Chunk) :
    ∀ prev, idxMap (aoGo ov prev rest) = idxMap rest := by
  induction rest with
  | nil => intro prev; rfl
  | cons c cs ih =>
    intro prev
    simp only [aoGo, idxMap, List.map_cons]
    rw [aoTransform_idx]
    exact congrArg _ (ih c)

theorem addOverlap_idxMap (l : List Chunk) (ov : Nat) :
    idxMap (addOverlap l ov) = idxMap l := by
  rw [addOverlap.eq_def]
  split
  · rfl
  · cases l with
    | nil => rfl
    | cons c0 rest =>
      simp only [idxMap, List.map_cons]
      have := aoGo_idxMap ov rest c0
      simp only [idxMap] at this
      rw [this]

theorem semanticChunkRaw_idxMap (t : Str) (p : Option Nat) (cfg : ChunkingConfig)
    (pre : List Chunk) (h : semanticChunkRaw t p cfg = some pre) :
    idxMap pre = List.range' 0 pre.length := by
  rw [semanticChunkRaw] at h
  split at h
  · simp only [Option.some.injEq] at h
    rw [← h]
    simp [idxMap, List.range']
  · exact scGo_idxMap cfg p _ 0 pre h

set_option maxHeartbeats 1000000 in
/-- C1 (amended): before the final minimum-size filter the chunk list has
contiguous indices `0, 1, …, n−1` — each splitter assigns consecutive
indices from its start index and `semanticChunk` seeds each block with the
running count.  The returned (filtered) list's indices are strictly
increasing, but the filter can drop chunks, so they need not be contiguous
nor start at 0. -/
theorem c1_chunkIndex_contiguity (t : Str) (p : Option Nat) (cfg : ChunkingConfig)
    (pre cs : List Chunk)
    (hraw : semanticChunkRaw t p cfg = some pre)
    (hfin : semanticChunk t p cfg = some cs) :
    idxMap pre = List.range' 0 pre.length ∧ List.Pairwise (· < ·) (idxMap cs) := by
  refine ⟨semanticChunkRaw_idxMap t p cfg pre hraw, ?_⟩
  rw [semanticChunk, hraw, Option.map_some'] at hfin
  have hcs : cs = (addOverlap pre cfg.overlapSize).filter
      (fun ch => cfg.minChunkSize ≤ (trimStr ch.content).length) :=
    (Option.some.inj hfin).symm
  have hsub : List.Sublist (idxMap cs) (idxMap (addOverlap pre cfg.overlapSize)) := by
    rw [hcs]
    exact (List.filter_sublist _).map _
  rw [addOverlap_idxMap, semanticChunkRaw_idxMap t p cfg pre hraw] at hsub
  exact (List.pairwise_lt_range' 0 pre.length).sublist hsub

/-- C1 witness: the theorem applied at a concrete one-letter document whose
single raw chunk is dropped by the final filter. -/
theorem c1_witness :
    semanticChunkRaw sampleTiny none DEFAULT_CONFIG =
      some [⟨['x'], ⟨0, none, ContentType.text, ConfLevel.high, false, 1⟩⟩] ∧
    semanticChunk sampleTiny none DEFAULT_CONFIG = some [] ∧
    (idxMap [⟨['x'], ⟨0, none, ContentType.text, ConfLevel.high, false, 1⟩⟩] =
        List.range' 0 1 ∧
      List.Pairwise (· < ·) (idxMap [])) :=
  ⟨by decide, by decide,
    c1_chunkIndex_contiguity sampleTiny none DEFAULT_CONFIG _ _ (by decide) (by decide)⟩

/-! ## The pre-overlap invariant: `originalLength` = content length, no flag -/

theorem ctsGo_inv (cfg : ChunkingConfig) (ty : ContentType) (conf : ℚ)
    (sents : List Str) :
    ∀ chunks cur idx, (∀ ch ∈ chunks, preChunkInv ch) →
      ∀ ch ∈ (ctsGo cfg ty conf sents chunks cur idx).1, preChunkInv ch := by
  induction sents with
  | nil => intro chunks cur idx h; exact h
  | cons s rest ih =>
    intro chunks cur idx h
    simp only [ctsGo]
    split
    · exact ih chunks cur idx h
    · split <;> split <;>
        first
          | exact ih chunks _ idx h
          | exact ih _ _ _ (by
              intro ch hch
              rcases List.mem_append.mp hch with hm | hm
              · exact h ch hm
              · rcases List.mem_singleton.mp hm with he
                rw [he]
                exact ⟨rfl, rfl⟩)

theorem ctsFinalize_inv (cfg : ChunkingConfig) (ty : ContentType) (conf : ℚ)
    (st : List Chunk × Str × Nat) (h : ∀ ch ∈ st.1, preChunkInv ch) :
    ∀ ch ∈ ctsFinalize cfg ty conf st, preChunkInv ch := by
  obtain ⟨chunks, cur, idx⟩ := st
  simp only at h
  rw [ctsFinalize]
  split
  · intro ch hch
    rcases List.mem_append.mp hch with hm | hm
    · exact h ch hm
    · rcases List.mem_singleton.mp hm with he
      rw [he]
      exact ⟨rfl, rfl⟩
  · split
    · intro ch hch
      rcases List.eq_nil_or_concat chunks with hc | ⟨L, b, hc⟩
      · subst hc
        exact h ch hch
      · subst hc
        simp only [List.concat_eq_append] at h hch ⊢
        rw [mergeIntoLast, List.getLast?_concat, List.dropLast_concat] at hch
        rcases List.mem_append.mp hch with hm | hm
        · exact h ch (List.mem_append.mpr (Or.inl hm))
        · rcases List.mem_singleton.mp hm with he
          rw [he]
          refine ⟨?_, rfl⟩
          exact (h b (List.mem_append.mpr (Or.inr (List.mem_singleton.mpr rfl)))).1
    · split
      · intro ch hch
        rcases List.mem_append.mp hch with hm | hm
        · exact h ch hm
        · rcases List.mem_singleton.mp hm with he
          rw [he]
          exact ⟨rfl, rfl⟩
      · exact h

theorem chunkTextBySentences_inv (b : ContentBlock) (i : Nat) (cfg : ChunkingConfig) :
    ∀ ch ∈ chunkTextBySentences b i cfg, preChunkInv ch := by
  rw [chunkTextBySentences]
  exact ctsFinalize_inv cfg b.type b.confidence _
    (ctsGo_inv cfg b.type b.confidence (sentencesOf b.text) [] [] i (by simp))

theorem cliGo_inv (cfg : ChunkingConfig) (lines : List Str) :
    ∀ chunks cur idx, (∀ ch ∈ chunks, preChunkInv ch) →
      ∀ ch ∈ (cliGo cfg lines chunks cur idx).1, preChunkInv ch := by
  induction lines with
  | nil => intro chunks cur idx h; exact h
  | cons line rest ih =>
    intro chunks cur idx h
    simp only [cliGo]
    split
    · exact ih chunks cur idx h
    · split <;> split <;>
        first
          | exact ih chunks _ idx h
          | exact ih _ _ _ (by
              intro ch hch
              rcases List.mem_append.mp hch with hm | hm
              · exact h ch hm
              · rcases List.mem_singleton.mp hm with he
                rw [he]
                exact ⟨rfl, rfl⟩)

theorem chunkListByItems_inv (b : ContentBlock) (i : Nat) (cfg : ChunkingConfig) :
    ∀ ch ∈ chunkListByItems b i cfg, preChunkInv ch := by
  rw [chunkListByItems]
  have hgo := cliGo_inv cfg (splitNl b.text) [] [] i (by simp)
  split
  · exact hgo
  · intro ch hch
    rcases List.mem_append.mp hch with hm | hm
    · exact hgo ch hm
    · rcases List.mem_singleton.mp hm with he
      rw [he]
      exact ⟨rfl, rfl⟩

theorem ctrGo_inv (cfg : ChunkingConfig) (header : Str) (lines : List Str) :
    ∀ chunks cur idx, (∀ ch ∈ chunks, preChunkInv ch) →
      ∀ ch ∈ (ctrGo cfg header lines chunks cur idx).1, preChunkInv ch := by
  induction lines with
  | nil => intro chunks cur idx h; exact h
  | cons line rest ih =>
    intro chunks cur idx h
    simp only [ctrGo]
    split
    · exact ih _ _ _ (by
        intro ch hch
        rcases List.mem_append.mp hch with hm | hm
        · exact h ch hm
        · rcases List.mem_singleton.mp hm with he
          rw [he]
          exact ⟨rfl, rfl⟩)
    · exact ih chunks _ idx h

theorem chunkTableByRows_inv (b : ContentBlock) (i : Nat) (cfg : ChunkingConfig)
    (cs : List Chunk) (h : chunkTableByRows b i cfg = some cs) :
    ∀ ch ∈ cs, preChunkInv ch := by
  rw [chunkTableByRows] at h
  cases hl : splitNl b.text with
  | nil => rw [hl] at h; exact absurd h (by simp)
  | cons l0 rest =>
    cases rest with
    | nil => rw [hl] at h; exact absurd h (by simp)
    | cons l1 rest2 =>
      rw [hl] at h
      simp only [Option.some.injEq] at h
      rw [← h]
      have hgo := ctrGo_inv cfg (joinNl (tableHeaderLines (l0 :: l1 :: rest2)))
        ((l0 :: l1 :: rest2).drop (tableHeaderLines (l0 :: l1 :: rest2)).length)
        [] (joinNl (tableHeaderLines (l0 :: l1 :: rest2))) i (by simp)
      split
      · intro ch hch
        rcases List.mem_append.mp hch with hm | hm
        · exact hgo ch hm
        · rcases List.mem_singleton.mp hm with he
          rw [he]
          exact ⟨rfl, rfl⟩
      · exact hgo

theorem chunkBlock_inv (b : ContentBlock) (i : Nat) (cfg : ChunkingConfig)
    (cs : List Chunk) (h : chunkBlock b i cfg = some cs) :
    ∀ ch ∈ cs, preChunkInv ch := by
  simp only [chunkBlock] at h
  by_cases hfit :
      b.text.length ≤ (if b.type = ContentType.table then cfg.tableMaxSize else cfg.maxChunkSize)
  · rw [if_pos hfit] at h
    simp only [Option.some.injEq] at h
    rw [← h]
    intro ch hch
    rcases List.mem_singleton.mp hch with he
    rw [he]
    exact ⟨rfl, rfl⟩
  · rw [if_neg hfit] at h
    by_cases ht : b.type = ContentType.table
    · rw [if_pos ht] at h
      exact chunkTableByRows_inv b i cfg cs h
    · rw [if_neg ht] at h
      by_cases hli : b.type = ContentType.list
      · rw [if_pos hli] at h
        simp only [Option.some.injEq] at h
        rw [← h]
        exact chunkListByItems_inv b i cfg
      · rw [if_neg hli] at h
        simp only [Option.some.injEq] at h
        rw [← h]
        exact chunkTextBySentences_inv b i cfg

theorem stampPage_inv (p : Option Nat) (cs : List Chunk)
    (h : ∀ ch ∈ cs, preChunkInv ch) : ∀ ch ∈ stampPage p cs, preChunkInv ch := by
  cases p with
  | none => exact h
  | some pn =>
    intro ch hch
    simp only [stampPage, List.mem_map] at hch
    obtain ⟨c, hc, he⟩ := hch
    rw [← he]
    exact h c hc

theorem scGo_inv (cfg : ChunkingConfig) (p : Option Nat) (bs : List ContentBlock) :
    ∀ idx l, scGo cfg p bs idx = some l → ∀ ch ∈ l, preChunkInv ch := by
  induction bs with
  | nil =>
    intro idx l h
    simp only [scGo, Option.some.injEq] at h
    rw [← h]
    simp
  | cons b rest ih =>
    intro idx l h
    rw [scGo] at h
    cases hb : chunkBlock b idx cfg with
    | none => rw [hb] at h; simp at h
    | some bcs =>
      simp only [hb] at h
      cases hr : scGo cfg p rest (idx + bcs.length) with
      | none => rw [hr] at h; simp at h
      | some rcs =>
        rw [hr] at h
        simp only [Option.some.injEq] at h
        rw [← h]
        intro ch hch
        rcases List.mem_append.mp hch with hm | hm
        · exact stampPage_inv p bcs (chunkBlock_inv b idx cfg bcs hb) ch hm
        · exact ih _ _ hr ch hm

theorem semanticChunkRaw_inv (t : Str) (p : Option Nat) (cfg : ChunkingConfig)
    (pre : List Chunk) (h : semanticChunkRaw t p cfg = some pre) :
    ∀ ch ∈ pre, preChunkInv ch := by
  rw [semanticChunkRaw] at h
  split at h
  · simp only [Option.some.injEq] at h
    rw [← h]
    simp
  · exact scGo_inv cfg p _ 0 pre h

/-! ## Overlap injection characterized position by position -/

theorem aoGo_length (ov : Nat) (rest : List Chunk) :
    ∀ prev, (aoGo ov prev rest).length = rest.length := by
  induction rest with
  | nil => intro prev; rfl
  | cons c cs ih =>
    intro prev
    simp only [aoGo, List.length_cons, ih c]

theorem addOverlap_length (l : List Chunk) (ov : Nat) :
    (addOverlap l ov).length = l.length := by
  rw [addOverlap.eq_def]
  split
  · rfl
  · cases l with
    | nil => rfl
    | cons c0 rest => simp [aoGo_length]

theorem chunkAt_cons_succ (c : Chunk) (cs : List Chunk) (n : Nat) :
    chunkAt (c :: cs) (n + 1) = chunkAt cs n := rfl

theorem chunkAt_cons_zero (c : Chunk) (cs : List Chunk) :
    chunkAt (c :: cs) 0 = c := rfl

theorem chunkAt_eq_get (cs : List Chunk) (i : Nat) (h : i < cs.length) :
    chunkAt cs i = cs.get ⟨i, h⟩ := by
  simp [chunkAt, List.getD_eq_getElem?_getD, List.getElem?_eq_getElem h]

theorem chunkAt_mem (cs : List Chunk) (i : Nat) (h : i < cs.length) :
    chunkAt cs i ∈ cs := by
  rw [chunkAt_eq_get cs i h]
  exact List.get_mem cs i h

theorem aoGo_chunkAt (ov : Nat) (rest : List Chunk) :
    ∀ prev i, i < rest.length →
      chunkAt (aoGo ov prev rest) i =
        aoTransform ov (if i = 0 then prev else chunkAt rest (i - 1)) (chunkAt rest i) := by
  induction rest with
  | nil => intro prev i hi; simp at hi
  | cons c cs ih =>
    intro prev i hi
    cases i with
    | zero => rfl
    | succ n =>
      rw [aoGo, chunkAt_cons_succ, chunkAt_cons_succ,
        ih c n (by simpa using Nat.lt_of_succ_lt_succ hi)]
      cases n with
      | zero => rfl
      | succ m => rfl

theorem addOverlap_chunkAt (l : List Chunk) (ov : Nat)
    (h2 : 2 ≤ l.length) (hov : ov ≠ 0) :
    chunkAt (addOverlap l ov) 0 =
      ⟨(chunkAt l 0).content, {(chunkAt l 0).metadata with hasOverlap := false}⟩ ∧
    ∀ i, 0 < i → i < l.length →
      chunkAt (addOverlap l ov) i =
        aoTransform ov (chunkAt l (i - 1)) (chunkAt l i) := by
  rw [addOverlap.eq_def]
  rw [if_neg (by omega)]
  cases l with
  | nil => simp at h2
  | cons c0 rest =>
    constructor
    · rfl
    · intro i h0 hi
      cases i with
      | zero => simp at h0
      | succ n =>
        rw [chunkAt_cons_succ,
          aoGo_chunkAt ov rest c0 n (by simpa using Nat.lt_of_succ_lt_succ hi)]
        cases n with
        | zero => rfl
        | succ m => rfl

set_option maxHeartbeats 1000000 in
/-- C10 (amended): for every returned chunk, `hasOverlap` is false iff the
content length equals `originalLength`; and when `hasOverlap` is true the
content is the last `overlapSize` characters of the immediately preceding
chunk in the PRE-FILTER sequence (which the final filter may have dropped
from the returned list), followed by two newlines, followed by that
position's pre-overlap content of length `originalLength`. -/
theorem c10_hasOverlap_invariant (t : Str) (p : Option Nat) (cfg : ChunkingConfig)
    (pre cs : List Chunk)
    (hraw : semanticChunkRaw t p cfg = some pre)
    (hfin : semanticChunk t p cfg = some cs) :
    ∀ ch ∈ cs,
      (ch.metadata.hasOverlap = false ↔ ch.content.length = ch.metadata.originalLength) ∧
      (ch.metadata.hasOverlap = true →
        ∃ j, 0 < j ∧ j < pre.length ∧
          ch.content = takeRight cfg.overlapSize (chunkAt pre (j - 1)).content ++
            '\n' :: '\n' :: (chunkAt pre j).content ∧
          ch.metadata.originalLength = (chunkAt pre j).content.length) := by
  intro ch hch
  have hinv := semanticChunkRaw_inv t p cfg pre hraw
  rw [semanticChunk, hraw, Option.map_some'] at hfin
  have hcs : cs = (addOverlap pre cfg.overlapSize).filter
      (fun c => cfg.minChunkSize ≤ (trimStr c.content).length) :=
    (Option.some.inj hfin).symm
  have hcho : ch ∈ addOverlap pre cfg.overlapSize := by
    rw [hcs] at hch
    exact List.mem_of_mem_filter hch
  by_cases hsmall : pre.length ≤ 1 ∨ cfg.overlapSize = 0
  · have heq : addOverlap pre cfg.overlapSize = pre := by
      rw [addOverlap.eq_def, if_pos hsmall]
    rw [heq] at hcho
    obtain ⟨hof, hlen⟩ := hinv ch hcho
    exact ⟨⟨fun _ => hlen.symm, fun _ => hof⟩,
      fun htrue => absurd (hof ▸ htrue) (by simp)⟩
  · push_neg at hsmall
    obtain ⟨h2, hov⟩ := hsmall
    obtain ⟨hc0, hci⟩ := addOverlap_chunkAt pre cfg.overlapSize (by omega) hov
    obtain ⟨i, hi, hei⟩ := List.mem_iff_getElem.mp hcho
    rw [addOverlap_length] at hi
    have hchAt : chunkAt (addOverlap pre cfg.overlapSize) i = ch := by
      rw [chunkAt_eq_get _ i (by rw [addOverlap_length]; exact hi)]
      simpa using hei
    cases Nat.eq_zero_or_pos i with
    | inl h0 =>
      subst h0
      rw [hc0] at hchAt
      obtain ⟨_, hlen0⟩ := hinv (chunkAt pre 0) (chunkAt_mem pre 0 (by omega))
      rw [← hchAt]
      refine ⟨⟨fun _ => by simpa using hlen0.symm, fun _ => rfl⟩,
        fun htrue => by simp at htrue⟩
    | inr hpos =>
      rw [hci i hpos hi] at hchAt
      rw [← hchAt, aoTransform]
      obtain ⟨_, hleni⟩ := hinv (chunkAt pre i) (chunkAt_mem pre i hi)
      split
      · exact ⟨⟨fun _ => by simpa using hleni.symm, fun _ => rfl⟩,
          fun htrue => by simp at htrue⟩
      · constructor
        · constructor
          · intro hfalse
            exact absurd hfalse (by simp)
          · intro hleneq
            exfalso
            simp only [List.length_append, List.length_cons] at hleneq
            omega
        · intro _
          exact ⟨i, hpos, hi, rfl, by simpa using hleni⟩

/-- C10 witness: the theorem applied to a concrete two-block document in
which the second returned chunk carries overlap from the first. -/
theorem c10_witness :
    semanticChunkRaw sampleTwoBlocks none overlapConfig = some preTwo ∧
    semanticChunk sampleTwoBlocks none overlapConfig = some csTwo ∧
    ∀ ch ∈ csTwo,
      (ch.metadata.hasOverlap = false ↔ ch.content.length = ch.metadata.originalLength) ∧
      (ch.metadata.hasOverlap = true →
        ∃ j, 0 < j ∧ j < preTwo.length ∧
          ch.content = takeRight overlapConfig.overlapSize
              (chunkAt preTwo (j - 1)).content ++
            '\n' :: '\n' :: (chunkAt preTwo j).content ∧
          ch.metadata.originalLength = (chunkAt preTwo j).content.length) :=
  ⟨by decide, by decide,
    c10_hasOverlap_invariant sampleTwoBlocks none overlapConfig preTwo csTwo
      (by decide) (by decide)⟩

/-! ## Table chunks all start with the table header -/

theorem ctrGo_header_prefix (cfg : ChunkingConfig) (header : Str) (lines : List Str) :
    ∀ chunks cur idx,
      (∀ ch ∈ chunks, ∃ r, ch.content = header ++ r) →
      (∃ r, cur = header ++ r) →
      (∀ ch ∈ (ctrGo cfg header lines chunks cur idx).1, ∃ r, ch.content = header ++ r) ∧
      (∃ r, (ctrGo cfg header lines chunks cur idx).2.1 = header ++ r) := by
  induction lines with
  | nil => intro chunks cur idx h hc; exact ⟨h, hc⟩
  | cons line rest ih =>
    intro chunks cur idx h hc
    simp only [ctrGo]
    split
    · refine ih _ _ _ ?_ ⟨'\n' :: line, rfl⟩
      intro ch hch
      rcases List.mem_append.mp hch with hm | hm
      · exact h ch hm
      · rcases List.mem_singleton.mp hm with he
        rw [he]
        exact hc
    · refine ih chunks _ idx h ?_
      obtain ⟨r, hr⟩ := hc
      exact ⟨r ++ '\n' :: line, by rw [hr, List.append_assoc]⟩

/-- C5: when the table splitter cuts a table block into two or more chunks,
every resulting chunk's content starts with the same header — the block's
first line, plus its second line when that line contains `-` or `=`. -/
theorem c5_table_header_preserved (b : ContentBlock) (i : Nat) (cfg : ChunkingConfig)
    (cs : List Chunk) (h : chunkTableByRows b i cfg = some cs) (_hmulti : 2 ≤ cs.length) :
    ∀ ch ∈ cs, ∃ r, ch.content = joinNl (tableHeaderLines (splitNl b.text)) ++ r := by
  rw [chunkTableByRows] at h
  cases hl : splitNl b.text with
  | nil => rw [hl] at h; exact absurd h (by simp)
  | cons l0 rest =>
    cases rest with
    | nil => rw [hl] at h; exact absurd h (by simp)
    | cons l1 rest2 =>
      rw [hl] at h
      simp only [Option.some.injEq] at h
      rw [← h]
      obtain ⟨hgo, hcur⟩ := ctrGo_header_prefix cfg
        (joinNl (tableHeaderLines (l0 :: l1 :: rest2)))
        ((l0 :: l1 :: rest2).drop (tableHeaderLines (l0 :: l1 :: rest2)).length)
        [] (joinNl (tableHeaderLines (l0 :: l1 :: rest2))) i
        (by simp) ⟨[], by simp⟩
      split
      · intro ch hch
        rcases List.mem_append.mp hch with hm | hm
        · exact hgo ch hm
        · rcases List.mem_singleton.mp hm with he
          rw [he]
          exact hcur
      · exact hgo

/-- C5 witness: the theorem applied to a concrete over-budget table block
that splits into three chunks, each carrying the header `H|A`. -/
theorem c5_witness :
    chunkTableByRows sampleTableBlock 0 tableConfig = some csTable ∧
    2 ≤ csTable.length ∧
    ∀ ch ∈ csTable, ∃ r,
      ch.content = joinNl (tableHeaderLines (splitNl sampleTableBlock.text)) ++ r :=
  ⟨by decide, by decide,
    c5_table_header_preserved sampleTableBlock 0 tableConfig csTable
      (by decide) (by decide)⟩

/-! ## Overlap is not prepended when the chunk already starts with it -/

/-- C6: during overlap injection, if chunk `i > 0` (whose pre-overlap flag
is clear) already starts with the last `overlapSize` characters of chunk
`i−1`'s content, its content is left unchanged and `hasOverlap` stays
false — `addOverlap` only checks the first 50 characters of the tail, and
a string starting with the full tail also starts with the tail's first 50
characters. -/
theorem c6_no_duplicate_overlap (chunks : List Chunk) (ov : Nat) (i : Nat)
    (h0 : 0 < i) (hi : i < chunks.length)
    (hflag : (chunkAt chunks i).metadata.hasOverlap = false)
    (hpre : startsWithStr (chunkAt chunks i).content
      (takeRight ov (chunkAt chunks (i - 1)).content) = true) :
    (chunkAt (addOverlap chunks ov) i).content = (chunkAt chunks i).content ∧
    (chunkAt (addOverlap chunks ov) i).metadata.hasOverlap = false := by
  by_cases hsmall : chunks.length ≤ 1 ∨ ov = 0
  · rw [addOverlap.eq_def, if_pos hsmall]
    exact ⟨rfl, hflag⟩
  · push_neg at hsmall
    obtain ⟨h2, hov⟩ := hsmall
    obtain ⟨_, hci⟩ := addOverlap_chunkAt chunks ov (by omega) hov
    rw [hci i h0 hi]
    simp only [aoTransform]
    rw [if_pos (startsWithStr_take _ _ 50 hpre)]
    exact ⟨rfl, rfl⟩

/-- C6 witness: the theorem applied to two concrete chunks where the second
already begins with the 3-character tail of the first. -/
theorem c6_witness :
    (0 : Nat) < 1 ∧ 1 < [overlapChunkA, overlapChunkB].length ∧
    (chunkAt [overlapChunkA, overlapChunkB] 1).metadata.hasOverlap = false ∧
    startsWithStr (chunkAt [overlapChunkA, overlapChunkB] 1).content
      (takeRight 3 (chunkAt [overlapChunkA, overlapChunkB] 0).content) = true ∧
    ((chunkAt (addOverlap [overlapChunkA, overlapChunkB] 3) 1).content =
        (chunkAt [overlapChunkA, overlapChunkB] 1).content ∧
      (chunkAt (addOverlap [overlapChunkA, overlapChunkB] 3) 1).metadata.hasOverlap =
        false) :=
  ⟨by decide, by decide, by decide, by decide,
    c6_no_duplicate_overlap [overlapChunkA, overlapChunkB] 3 1
      (by decide) (by decide) (by decide) (by decide)⟩

/-! ## The sentence splitter keeps its final fragment; the filter may not -/

/-- C2 counterexample: a non-empty document shorter than `minChunkSize`
produces EMPTY output from `semanticChunk` — the single chunk holding its
text is dropped by the final minimum-size filter, so the claim's "still
produces output containing its text" fails at the `semanticChunk` level. -/
theorem c2_counterexample :
    sampleShortDoc ≠ [] ∧ sampleShortDoc.length < DEFAULT_CONFIG.minChunkSize ∧
    semanticChunk sampleShortDoc none DEFAULT_CONFIG = some [] := by
  refine ⟨by decide, by decide, by decide⟩

/-- C2 (amended): `chunkTextBySentences` itself never discards the final
accumulated fragment: its text is a suffix of some emitted chunk; when it
is smaller than `minChunkSize` and prior chunks exist it is merged into
the last chunk (the chunk count does not grow), and when no prior chunks
exist it is emitted as its own chunk with confidence `low`.  (But
`semanticChunk`'s final filter can still drop the resulting chunk, as the
counterexample shows.) -/
theorem c2_final_fragment_kept (b : ContentBlock) (i : Nat) (cfg : ChunkingConfig)
    (hcur : (ctsLoop b i cfg).2.1 ≠ []) :
    (∃ ch ∈ chunkTextBySentences b i cfg,
      ∃ p, ch.content = p ++ (ctsLoop b i cfg).2.1) ∧
    ((ctsLoop b i cfg).2.1.length < cfg.minChunkSize → (ctsLoop b i cfg).1 ≠ [] →
      (chunkTextBySentences b i cfg).length = (ctsLoop b i cfg).1.length) ∧
    ((ctsLoop b i cfg).1 = [] → (ctsLoop b i cfg).2.1.length < cfg.minChunkSize →
      chunkTextBySentences b i cfg =
        [⟨(ctsLoop b i cfg).2.1,
          ⟨(ctsLoop b i cfg).2.2, none, b.type, ConfLevel.low, false,
            (ctsLoop b i cfg).2.1.length⟩⟩]) := by
  rw [chunkTextBySentences]
  rcases hst : ctsLoop b i cfg with ⟨cs, cur, idx⟩
  rw [hst] at hcur
  simp only at hcur ⊢
  rw [ctsFinalize]
  have hcur' : ¬cur.isEmpty = true := by simpa using hcur
  by_cases h1 : ¬cur.isEmpty = true ∧ cfg.minChunkSize ≤ cur.length
  · rw [if_pos h1]
    refine ⟨⟨midTextChunk b.type b.confidence cur idx,
      List.mem_append.mpr (Or.inr (List.mem_singleton.mpr rfl)), [], rfl⟩, ?_, ?_⟩
    · intro hlt _
      omega
    · intro _ hlt
      omega
  · rw [if_neg h1]
    have hlt : cur.length < cfg.minChunkSize := by
      rcases Nat.lt_or_ge cur.length cfg.minChunkSize with h | h
      · exact h
      · exact absurd ⟨hcur', h⟩ h1
    by_cases h2 : ¬cur.isEmpty = true ∧ ¬cs.isEmpty = true
    · rw [if_pos h2]
      rcases List.eq_nil_or_concat cs with hc | ⟨L, b0, hc⟩
      · rw [hc] at h2
        simp at h2
      · subst hc
        simp only [List.concat_eq_append]
        rw [mergeIntoLast, List.getLast?_concat, List.dropLast_concat]
        refine ⟨⟨⟨b0.content ++ ' ' :: cur,
            {b0.metadata with originalLength := (b0.content ++ ' ' :: cur).length}⟩,
          List.mem_append.mpr (Or.inr (List.mem_singleton.mpr rfl)),
          b0.content ++ [' '], by simp⟩, ?_, ?_⟩
        · intro _ _
          simp
        · intro hnil _
          simp at hnil
    · rw [if_neg h2]
      have hcs : cs = [] := by
        rcases List.eq_nil_or_concat cs with hc | ⟨L, b0, hc⟩
        · exact hc
        · refine absurd ⟨hcur', ?_⟩ h2
          subst hc
          simp
      subst hcs
      rw [if_pos hcur']
      exact ⟨⟨⟨cur, ⟨idx, none, b.type, ConfLevel.low, false, cur.length⟩⟩,
          List.mem_append.mpr (Or.inr (List.mem_singleton.mpr rfl)), [], rfl⟩,
        fun _ hne => absurd rfl hne, fun _ _ => rfl⟩

/-- C2 witness: the theorem applied to a concrete block whose loop ends
with the 4-character fragment `Bye.` under a minimum size of 5. -/
theorem c2_witness :
    (ctsLoop sampleTextBlock 0 textConfig).2.1 ≠ [] ∧
    ((∃ ch ∈ chunkTextBySentences sampleTextBlock 0 textConfig,
        ∃ p, ch.content = p ++ (ctsLoop sampleTextBlock 0 textConfig).2.1) ∧
      ((ctsLoop sampleTextBlock 0 textConfig).2.1.length < textConfig.minChunkSize →
        (ctsLoop sampleTextBlock 0 textConfig).1 ≠ [] →
        (chunkTextBySentences sampleTextBlock 0 textConfig).length =
          (ctsLoop sampleTextBlock 0 textConfig).1.length) ∧
      ((ctsLoop sampleTextBlock 0 textConfig).1 = [] →
        (ctsLoop sampleTextBlock 0 textConfig).2.1.length < textConfig.minChunkSize →
        chunkTextBySentences sampleTextBlock 0 textConfig =
          [⟨(ctsLoop sampleTextBlock 0 textConfig).2.1,
            ⟨(ctsLoop sampleTextBlock 0 textConfig).2.2, none, sampleTextBlock.type,
              ConfLevel.low, false,
              (ctsLoop sampleTextBlock 0 textConfig).2.1.length⟩⟩])) :=
  ⟨by decide, c2_final_fragment_kept sampleTextBlock 0 textConfig (by decide)⟩

/-! ## Size bounds of the splitters when every indivisible unit fits -/

theorem ctsGo_bound (cfg : ChunkingConfig) (ty : ContentType) (conf : ℚ)
    (sents : List Str)
    (hfit : ∀ s ∈ sents, (trimStr s).length + cfg.minChunkSize ≤ cfg.maxChunkSize) :
    ∀ chunks cur idx,
      (∀ ch ∈ chunks, ch.content.length ≤ cfg.maxChunkSize ∧
        ch.metadata.contentType = ty) →
      cur.length ≤ cfg.maxChunkSize →
      (∀ ch ∈ (ctsGo cfg ty conf sents chunks cur idx).1,
        ch.content.length ≤ cfg.maxChunkSize ∧ ch.metadata.contentType = ty) ∧
      (ctsGo cfg ty conf sents chunks cur idx).2.1.length ≤ cfg.maxChunkSize := by
  induction sents with
  | nil => intro chunks cur idx h hc; exact ⟨h, hc⟩
  | cons s rest ih =>
    intro chunks cur idx h hc
    have hs := hfit s (List.mem_cons_self s rest)
    have ih' := ih (fun x hx => hfit x (List.mem_cons_of_mem s hx))
    have hpush : ∀ ch ∈ chunks ++ [midTextChunk ty conf cur idx],
        ch.content.length ≤ cfg.maxChunkSize ∧ ch.metadata.contentType = ty := by
      intro ch hch
      rcases List.mem_append.mp hch with hm | hm
      · exact h ch hm
      · rcases List.mem_singleton.mp hm with he
        rw [he]
        exact ⟨hc, rfl⟩
    simp only [ctsGo]
    split
    · exact ih' chunks cur idx h hc
    · by_cases hce : cur.isEmpty = true
      · rw [if_pos hce]
        rw [List.isEmpty_iff] at hce
        subst hce
        simp only [List.nil_append, List.length_nil]
        split
        · exact ih' _ _ _ hpush (by omega)
        · exact ih' chunks _ idx h (by omega)
      · rw [if_neg hce]
        have hple : (cur ++ [' '] ++ trimStr s).length =
            cur.length + 1 + (trimStr s).length := by
          simp only [List.length_append, List.length_cons, List.length_nil]
          try omega
        split
        · exact ih' _ _ _ hpush (by omega)
        · rename_i hcond
          refine ih' chunks _ idx h ?_
          rcases Decidable.not_and_iff_or_not.mp hcond with hp | hm
          · omega
          · omega

theorem ctsFinalize_bound (cfg : ChunkingConfig) (ty : ContentType) (conf : ℚ)
    (st : List Chunk × Str × Nat)
    (h : ∀ ch ∈ st.1, ch.content.length ≤ cfg.maxChunkSize ∧
      ch.metadata.contentType = ty)
    (hc : st.2.1.length ≤ cfg.maxChunkSize) :
    ∀ ch ∈ ctsFinalize cfg ty conf st,
      ch.content.length ≤ cfg.maxChunkSize + cfg.minChunkSize ∧
      ch.metadata.contentType = ty := by
  obtain ⟨chunks, cur, idx⟩ := st
  simp only at h hc
  rw [ctsFinalize]
  split
  · intro ch hch
    rcases List.mem_append.mp hch with hm | hm
    · obtain ⟨h1, h2⟩ := h ch hm
      exact ⟨by omega, h2⟩
    · rcases List.mem_singleton.mp hm with he
      rw [he]
      refine ⟨?_, rfl⟩
      show cur.length ≤ cfg.maxChunkSize + cfg.minChunkSize
      omega
  · split
    · rename_i hn1 hn2
      have hlt : cur.length < cfg.minChunkSize := by
        rcases Decidable.not_and_iff_or_not.mp hn1 with hp | hm
        · exact absurd hn2.1 hp
        · omega
      intro ch hch
      rcases List.eq_nil_or_concat chunks with hcn | ⟨L, b0, hcn⟩
      · exact absurd (show chunks.isEmpty = true by simp [hcn]) hn2.2
      · subst hcn
        simp only [List.concat_eq_append] at h hch ⊢
        rw [mergeIntoLast, List.getLast?_concat, List.dropLast_concat] at hch
        rcases List.mem_append.mp hch with hm | hm
        · obtain ⟨h1, h2⟩ := h ch (List.mem_append.mpr (Or.inl hm))
          exact ⟨by omega, h2⟩
        · rcases List.mem_singleton.mp hm with he
          obtain ⟨hb1, hb2⟩ :=
            h b0 (List.mem_append.mpr (Or.inr (List.mem_singleton.mpr rfl)))
          rw [he]
          refine ⟨?_, hb2⟩
          show (b0.content ++ ' ' :: cur).length ≤ cfg.maxChunkSize + cfg.minChunkSize
          simp only [List.length_append, List.length_cons]
          omega
    · split
      · intro ch hch
        rcases List.mem_append.mp hch with hm | hm
        · obtain ⟨h1, h2⟩ := h ch hm
          exact ⟨by omega, h2⟩
        · rcases List.mem_singleton.mp hm with he
          rw [he]
          refine ⟨?_, rfl⟩
          show cur.length ≤ cfg.maxChunkSize + cfg.minChunkSize
          omega
      · intro ch hch
        obtain ⟨h1, h2⟩ := h ch hch
        exact ⟨by omega, h2⟩

theorem chunkTextBySentences_bound (b : ContentBlock) (i : Nat) (cfg : ChunkingConfig)
    (hfit : ∀ s ∈ sentencesOf b.text,
      (trimStr s).length + cfg.minChunkSize ≤ cfg.maxChunkSize) :
    ∀ ch ∈ chunkTextBySentences b i cfg,
      ch.content.length ≤ cfg.maxChunkSize + cfg.minChunkSize ∧
      ch.metadata.contentType = b.type := by
  rw [chunkTextBySentences, ctsLoop]
  obtain ⟨hall, hcur⟩ := ctsGo_bound cfg b.type b.confidence (sentencesOf b.text) hfit
    [] [] i (by simp) (by simp)
  exact ctsFinalize_bound cfg b.type b.confidence _ hall hcur

theorem cliGo_bound (cfg : ChunkingConfig) (lines : List Str)
    (hfit : ∀ line ∈ lines, line.length ≤ cfg.maxChunkSize) :
    ∀ chunks cur idx,
      (∀ ch ∈ chunks, ch.content.length ≤ cfg.maxChunkSize ∧
        ch.metadata.contentType = ContentType.list) →
      cur.length ≤ cfg.maxChunkSize →
      (∀ ch ∈ (cliGo cfg lines chunks cur idx).1,
        ch.content.length ≤ cfg.maxChunkSize ∧
        ch.metadata.contentType = ContentType.list) ∧
      (cliGo cfg lines chunks cur idx).2.1.length ≤ cfg.maxChunkSize := by
  induction lines with
  | nil => intro chunks cur idx h hc; exact ⟨h, hc⟩
  | cons line rest ih =>
    intro chunks cur idx h hc
    have hl := hfit line (List.mem_cons_self line rest)
    have ih' := ih (fun x hx => hfit x (List.mem_cons_of_mem line hx))
    have hpush : ∀ ch ∈ chunks ++ [listChunk cur idx],
        ch.content.length ≤ cfg.maxChunkSize ∧
        ch.metadata.contentType = ContentType.list := by
      intro ch hch
      rcases List.mem_append.mp hch with hm | hm
      · exact h ch hm
      · rcases List.mem_singleton.mp hm with he
        rw [he]
        exact ⟨hc, rfl⟩
    simp only [cliGo]
    split
    · exact ih' chunks cur idx h hc
    · by_cases hce : cur.isEmpty = true
      · rw [if_pos hce]
        rw [List.isEmpty_iff] at hce
        subst hce
        simp only [List.nil_append, List.length_nil]
        split
        · rename_i hcond
          exact absurd hcond.2 (by simp)
        · exact ih' chunks _ idx h hl
      · rw [if_neg hce]
        have hple : (cur ++ ['\n'] ++ line).length =
            cur.length + 1 + line.length := by
          simp only [List.length_append, List.length_cons, List.length_nil]
          try omega
        have hpos : 0 < cur.length := by
          rcases Nat.eq_zero_or_pos cur.length with hz | hp
          · exact absurd (List.isEmpty_iff.mpr (List.length_eq_zero.mp hz)) hce
          · exact hp
        split
        · exact ih' _ _ _ hpush hl
        · rename_i hcond
          refine ih' chunks _ idx h ?_
          rcases Decidable.not_and_iff_or_not.mp hcond with hp | hm
          · omega
          · omega

theorem chunkListByItems_bound (b : ContentBlock) (i : Nat) (cfg : ChunkingConfig)
    (hfit : ∀ line ∈ splitNl b.text, line.length ≤ cfg.maxChunkSize) :
    ∀ ch ∈ chunkListByItems b i cfg,
      ch.content.length ≤ cfg.maxChunkSize ∧
      ch.metadata.contentType = ContentType.list := by
  rw [chunkListByItems]
  obtain ⟨hall, hcur⟩ := cliGo_bound cfg (splitNl b.text) hfit [] [] i (by simp) (by simp)
  split
  · exact hall
  · intro ch hch
    rcases List.mem_append.mp hch with hm | hm
    · exact hall ch hm
    · rcases List.mem_singleton.mp hm with he
      rw [he]
      exact ⟨hcur, rfl⟩

theorem ctrGo_bound (cfg : ChunkingConfig) (header : Str) (lines : List Str)
    (hfit : ∀ line ∈ lines, header.length + 1 + line.length ≤ cfg.tableMaxSize) :
    ∀ chunks cur idx,
      (∀ ch ∈ chunks, ch.content.length ≤ cfg.tableMaxSize ∧
        ch.metadata.contentType = ContentType.table) →
      (cur = header ∨ cur.length ≤ cfg.tableMaxSize) →
      (∀ ch ∈ (ctrGo cfg header lines chunks cur idx).1,
        ch.content.length ≤ cfg.tableMaxSize ∧
        ch.metadata.contentType = ContentType.table) ∧
      ((ctrGo cfg header lines chunks cur idx).2.1 = header ∨
        (ctrGo cfg header lines chunks cur idx).2.1.length ≤ cfg.tableMaxSize) := by
  induction lines with
  | nil => intro chunks cur idx h hc; exact ⟨h, hc⟩
  | cons line rest ih =>
    intro chunks cur idx h hc
    have hl := hfit line (List.mem_cons_self line rest)
    have ih' := ih (fun x hx => hfit x (List.mem_cons_of_mem line hx))
    simp only [ctrGo]
    split
    · rename_i hcond
      have hcur : cur.length ≤ cfg.tableMaxSize := by
        rcases hc with hch | hcl
        · exact absurd hch hcond.2
        · exact hcl
      refine ih' _ _ _ ?_ (Or.inr (by simp; omega))
      intro ch hch
      rcases List.mem_append.mp hch with hm | hm
      · exact h ch hm
      · rcases List.mem_singleton.mp hm with he
        rw [he]
        exact ⟨hcur, rfl⟩
    · rename_i hcond
      refine ih' chunks _ idx h ?_
      rcases Decidable.not_and_iff_or_not.mp hcond with hp | hm
      · right
        simpa using hp
      · have hch : cur = header := by
          rcases hc with hch | _
          · exact hch
          · exact Decidable.not_not.mp hm
        right
        rw [hch]
        simp only [List.length_append, List.length_cons]
        omega

theorem chunkTableByRows_bound (b : ContentBlock) (i : Nat) (cfg : ChunkingConfig)
    (cs : List Chunk) (h : chunkTableByRows b i cfg = some cs)
    (hfit : ∀ line ∈ (splitNl b.text).drop (tableHeaderLines (splitNl b.text)).length,
      (joinNl (tableHeaderLines (splitNl b.text))).length + 1 + line.length ≤
        cfg.tableMaxSize) :
    ∀ ch ∈ cs, ch.content.length ≤ cfg.tableMaxSize ∧
      ch.metadata.contentType = ContentType.table := by
  rw [chunkTableByRows] at h
  cases hl : splitNl b.text with
  | nil => rw [hl] at h; exact absurd h (by simp)
  | cons l0 rest =>
    cases rest with
    | nil => rw [hl] at h; exact absurd h (by simp)
    | cons l1 rest2 =>
      rw [hl] at h
      rw [hl] at hfit
      simp only [Option.some.injEq] at h
      rw [← h]
      obtain ⟨hall, hcur⟩ := ctrGo_bound cfg (joinNl (tableHeaderLines (l0 :: l1 :: rest2)))
        ((l0 :: l1 :: rest2).drop (tableHeaderLines (l0 :: l1 :: rest2)).length) hfit
        [] (joinNl (tableHeaderLines (l0 :: l1 :: rest2))) i (by simp) (Or.inl rfl)
      split
      · rename_i hgt
        intro ch hch
        rcases List.mem_append.mp hch with hm | hm
        · exact hall ch hm
        · rcases List.mem_singleton.mp hm with he
          rw [he]
          refine ⟨?_, rfl⟩
          rcases hcur with hch2 | hcl
          · rw [hch2] at hgt
            omega
          · exact hcl
      · exact hall

theorem chunkBlock_bound (b : ContentBlock) (i : Nat) (cfg : ChunkingConfig)
    (cs : List Chunk) (h : chunkBlock b i cfg = some cs) (hfit : unitsFit b cfg) :
    ∀ ch ∈ cs,
      (ch.metadata.contentType = ContentType.table →
        ch.content.length ≤ cfg.tableMaxSize) ∧
      (ch.metadata.contentType ≠ ContentType.table →
        ch.content.length ≤ cfg.maxChunkSize + cfg.minChunkSize) := by
  simp only [chunkBlock] at h
  by_cases hfl :
      b.text.length ≤ (if b.type = ContentType.table then cfg.tableMaxSize else cfg.maxChunkSize)
  · rw [if_pos hfl] at h
    simp only [Option.some.injEq] at h
    rw [← h]
    intro ch hch
    rcases List.mem_singleton.mp hch with he
    rw [he]
    constructor
    · intro htab
      have ht : b.type = ContentType.table := htab
      rw [if_pos ht] at hfl
      exact hfl
    · intro htab
      have ht : b.type ≠ ContentType.table := htab
      rw [if_neg ht] at hfl
      show b.text.length ≤ cfg.maxChunkSize + cfg.minChunkSize
      omega
  · rw [if_neg hfl] at h
    by_cases ht : b.type = ContentType.table
    · rw [if_pos ht] at h
      have hf : ∀ line ∈ (splitNl b.text).drop (tableHeaderLines (splitNl b.text)).length,
          (joinNl (tableHeaderLines (splitNl b.text))).length + 1 + line.length ≤
            cfg.tableMaxSize := by
        simpa [unitsFit, ht] using hfit
      intro ch hch
      obtain ⟨h1, h2⟩ := chunkTableByRows_bound b i cfg cs h hf ch hch
      exact ⟨fun _ => h1, fun hne => absurd h2 hne⟩
    · rw [if_neg ht] at h
      by_cases hli : b.type = ContentType.list
      · rw [if_pos hli] at h
        simp only [Option.some.injEq] at h
        rw [← h]
        have hf : ∀ line ∈ splitNl b.text, line.length ≤ cfg.maxChunkSize := by
          simpa [unitsFit, hli] using hfit
        intro ch hch
        obtain ⟨h1, h2⟩ := chunkListByItems_bound b i cfg hf ch hch
        refine ⟨fun htab => absurd (h2.symm.trans htab) (by simp), fun _ => by omega⟩
      · rw [if_neg hli] at h
        simp only [Option.some.injEq] at h
        rw [← h]
        have hf : ∀ s ∈ sentencesOf b.text,
            (trimStr s).length + cfg.minChunkSize ≤ cfg.maxChunkSize := by
          cases htyp : b.type
          · simpa [unitsFit, htyp] using hfit
          · exact absurd htyp ht
          · exact absurd htyp hli
          · simpa [unitsFit, htyp] using hfit
        intro ch hch
        obtain ⟨h1, h2⟩ := chunkTextBySentences_bound b i cfg hf ch hch
        exact ⟨fun htab => absurd (h2.symm.trans htab) ht, fun _ => h1⟩

theorem stampPage_pres (p : Option Nat) (cs : List Chunk) :
    ∀ ch ∈ stampPage p cs, ∃ c ∈ cs, ch.content = c.content ∧
      ch.metadata.contentType = c.metadata.contentType := by
  cases p with
  | none => intro ch hch; exact ⟨ch, hch, rfl, rfl⟩
  | some pn =>
    intro ch hch
    simp only [stampPage, List.mem_map] at hch
    obtain ⟨c, hc, he⟩ := hch
    exact ⟨c, hc, by rw [← he], by rw [← he]⟩

theorem scGo_bound (cfg : ChunkingConfig) (p : Option Nat) (bs : List ContentBlock)
    (hfit : ∀ b ∈ bs, unitsFit b cfg) :
    ∀ idx l, scGo cfg p bs idx = some l → ∀ ch ∈ l,
      (ch.metadata.contentType = ContentType.table →
        ch.content.length ≤ cfg.tableMaxSize) ∧
      (ch.metadata.contentType ≠ ContentType.table →
        ch.content.length ≤ cfg.maxChunkSize + cfg.minChunkSize) := by
  induction bs with
  | nil =>
    intro idx l h
    simp only [scGo, Option.some.injEq] at h
    rw [← h]
    simp
  | cons b rest ih =>
    intro idx l h
    rw [scGo] at h
    cases hb : chunkBlock b idx cfg with
    | none => rw [hb] at h; simp at h
    | some bcs =>
      simp only [hb] at h
      cases hr : scGo cfg p rest (idx + bcs.length) with
      | none => rw [hr] at h; simp at h
      | some rcs =>
        rw [hr] at h
        simp only [Option.some.injEq] at h
        rw [← h]
        intro ch hch
        rcases List.mem_append.mp hch with hm | hm
        · obtain ⟨c, hc, he1, he2⟩ := stampPage_pres p bcs ch hm
          obtain ⟨h1, h2⟩ :=
            chunkBlock_bound b idx cfg bcs hb (hfit b (List.mem_cons_self b rest)) c hc
          rw [he1, he2]
          exact ⟨h1, h2⟩
        · exact ih (fun x hx => hfit x (List.mem_cons_of_mem b hx)) _ _ hr ch hm

theorem addOverlap_mem (l : List Chunk) (ov : Nat) :
    ∀ ch ∈ addOverlap l ov, ∃ c ∈ l,
      ch.content.length ≤ c.content.length + ov + 2 ∧
      ch.metadata.contentType = c.metadata.contentType := by
  intro ch hch
  by_cases hsmall : l.length ≤ 1 ∨ ov = 0
  · rw [addOverlap.eq_def, if_pos hsmall] at hch
    exact ⟨ch, hch, by omega, rfl⟩
  · push_neg at hsmall
    obtain ⟨h2, hov⟩ := hsmall
    obtain ⟨hc0, hci⟩ := addOverlap_chunkAt l ov (by omega) hov
    obtain ⟨i, hi, hei⟩ := List.mem_iff_getElem.mp hch
    rw [addOverlap_length] at hi
    have hchAt : chunkAt (addOverlap l ov) i = ch := by
      rw [chunkAt_eq_get _ i (by rw [addOverlap_length]; exact hi)]
      simpa using hei
    cases Nat.eq_zero_or_pos i with
    | inl h0 =>
      subst h0
      rw [hc0] at hchAt
      refine ⟨chunkAt l 0, chunkAt_mem l 0 (by omega), ?_, ?_⟩
      · rw [← hchAt]
        show (chunkAt l 0).content.length ≤ _
        omega
      · rw [← hchAt]
    | inr hpos =>
      rw [hci i hpos hi] at hchAt
      refine ⟨chunkAt l i, chunkAt_mem l i hi, ?_, ?_⟩
      · rw [← hchAt]
        rw [aoTransform]
        split
        · show (chunkAt l i).content.length ≤ _
          omega
        · show (takeRight ov (chunkAt l (i - 1)).content ++
            '\n' :: '\n' :: (chunkAt l i).content).length ≤ _
          have := takeRight_length_le ov (chunkAt l (i - 1)).content
          simp only [List.length_append, List.length_cons]
          omega
      · rw [← hchAt]
        rw [aoTransform]
        split <;> rfl

set_option maxHeartbeats 1000000 in
/-- C4 (amended): the claimed bound holds whenever every indivisible unit
of every block fits its budget (each table row with the header within
`tableMaxSize`, each list line within `maxChunkSize`, each trimmed
sentence within `maxChunkSize − minChunkSize`); the additive constant is
`minChunkSize + 2` (a too-small final fragment may be merged into the
previous chunk, and overlap injection adds at most `overlapSize` tail
characters plus two newlines).  Without that proviso a single oversized
sentence, list line or table row becomes a chunk of unbounded size, as
the counterexample shows. -/
theorem c4_size_bound (t : Str) (p : Option Nat) (cfg : ChunkingConfig)
    (cs : List Chunk) (hfin : semanticChunk t p cfg = some cs)
    (hfit : ∀ b ∈ segmentIntoBlocks (preprocessText t chunkerOptions), unitsFit b cfg) :
    ∀ ch ∈ cs,
      (ch.metadata.contentType = ContentType.table →
        ch.content.length ≤ cfg.tableMaxSize + cfg.overlapSize + 2) ∧
      (ch.metadata.contentType ≠ ContentType.table →
        ch.content.length ≤
          cfg.maxChunkSize + cfg.minChunkSize + cfg.overlapSize + 2) := by
  obtain ⟨pre, hraw⟩ := semanticChunkRaw_isSome t p cfg
  have hpre : ∀ ch ∈ pre,
      (ch.metadata.contentType = ContentType.table →
        ch.content.length ≤ cfg.tableMaxSize) ∧
      (ch.metadata.contentType ≠ ContentType.table →
        ch.content.length ≤ cfg.maxChunkSize + cfg.minChunkSize) := by
    rw [semanticChunkRaw] at hraw
    split at hraw
    · simp only [Option.some.injEq] at hraw
      rw [← hraw]
      simp
    · exact scGo_bound cfg p _ hfit 0 pre hraw
  intro ch hch
  rw [semanticChunk, hraw, Option.map_some'] at hfin
  have hcs : cs = (addOverlap pre cfg.overlapSize).filter
      (fun c => cfg.minChunkSize ≤ (trimStr c.content).length) :=
    (Option.some.inj hfin).symm
  have hcho : ch ∈ addOverlap pre cfg.overlapSize := by
    rw [hcs] at hch
    exact List.mem_of_mem_filter hch
  obtain ⟨c, hc, hlen, htyp⟩ := addOverlap_mem pre cfg.overlapSize ch hcho
  obtain ⟨hb1, hb2⟩ := hpre c hc
  constructor
  · intro htab
    have := hb1 (htyp.symm.trans htab)
    omega
  · intro htab
    have := hb2 (fun hcon => htab (htyp.trans hcon))
    omega

/-- C4 witness: the theorem applied to the concrete two-block document,
whose blocks' sentences all fit their budgets. -/
theorem c4_witness :
    semanticChunk sampleTwoBlocks none overlapConfig = some csTwo ∧
    (∀ b ∈ segmentIntoBlocks (preprocessText sampleTwoBlocks chunkerOptions),
      unitsFit b overlapConfig) ∧
    ∀ ch ∈ csTwo,
      (ch.metadata.contentType = ContentType.table →
        ch.content.length ≤
          overlapConfig.tableMaxSize + overlapConfig.overlapSize + 2) ∧
      (ch.metadata.contentType ≠ ContentType.table →
        ch.content.length ≤ overlapConfig.maxChunkSize + overlapConfig.minChunkSize +
          overlapConfig.overlapSize + 2) :=
  ⟨by decide, by decide,
    c4_size_bound sampleTwoBlocks none overlapConfig csTwo (by decide) (by decide)⟩
